import Mathlib

/-!
# Verification of the meta-extractor path-log compaction engine

Shallow embedding of `src/meta-extractor/main.go`: the delta path codec
(`calculateDeltaPath` / `reconstructPath`), the size-bounded rotating
segment writer (`RotatingWriter.WritePath` / `rotate` / `Close`), the
inflator (`inflateDirectory`), the resumable directory walk
(`walkDirectory`) and the seal/compress step (`compressFile`).

Modelling conventions:
* Paths are strings; the string primitives the Go code uses
  (`strings.Split`, `strings.Join`, `strconv.Atoi`, `filepath.Dir`,
  `filepath.Base`, `filepath.Join`, `filepath.Clean` for slash-separated
  paths) are embedded on `List Char` and wrapped at `String` level.
  Go's `len` on the written line is a byte count, kept as
  `String.utf8ByteSize`.
* The rotating writer is a state machine; the filesystem is replaced by
  the list of sealed segment contents plus the active segment's lines.
  I/O primitives are assumed to succeed inside the writer; the failure
  modes of the seal/compress step are modelled separately by
  `compressFile` over an outcome environment, mirroring its control flow.
* `filepath.WalkDir` is abstracted as a finite ordered list of
  `(path, isDir)` entries handed to the callback of `walkDirectory`.
* `inflateDirectory` takes the sealed segments already in ascending
  segment-number order (the writer produces them in that order; the
  directory scan, numeric sort and gzip decompression are I/O glue).
-/

/-- Character-list view of a string, the unit the Go string primitives
are embedded on. -/
abbrev Chars := List Char

/-- `strings.Split(s, sep)` for a one-character separator: splits around
every occurrence, keeping empty pieces, and yields `[""]` for `""`. -/
def splitChars (sep : Char) : Chars → List Chars
  | [] => [[]]
  | c :: rest =>
    if c = sep then [] :: splitChars sep rest
    else
      match splitChars sep rest with
      | [] => [[c]]
      | h :: t => (c :: h) :: t

/-- `strings.Join(pieces, sep)` for a one-character separator. -/
def joinChars (sep : Char) : List Chars → Chars
  | [] => []
  | [x] => x
  | x :: xs => x ++ sep :: joinChars sep xs

/-- Length of the common leading run of two component lists, as the loop
in `calculateDeltaPath` computes it. -/
def commonPrefixLen : List Chars → List Chars → Nat
  | a :: as, b :: bs => if a = b then commonPrefixLen as bs + 1 else 0
  | _, _ => 0

/-- The component pass of Go's `path/filepath.Clean` (no volume names):
drops empty and `.` components, resolves `..` against the accumulated
output, keeps `..` only when unrooted with nothing to pop. `acc` holds
the output components in reverse. -/
def cleanSegsAux (rooted : Bool) (acc : List Chars) : List Chars → List Chars
  | [] => acc.reverse
  | c :: rest =>
    if c = [] ∨ c = ['.'] then cleanSegsAux rooted acc rest
    else if c = ['.', '.'] then
      match acc with
      | [] => if rooted then cleanSegsAux rooted [] rest
              else cleanSegsAux rooted [['.', '.']] rest
      | a :: as =>
        if a = ['.', '.'] then cleanSegsAux rooted (['.', '.'] :: a :: as) rest
        else cleanSegsAux rooted as rest
    else cleanSegsAux rooted (c :: acc) rest

/-- Go's `path/filepath.Clean` on a slash-separated path. -/
def cleanChars (p : Chars) : Chars :=
  if p = [] then ['.']
  else
    let rooted : Bool := decide (p.head? = some '/')
    let comps := cleanSegsAux rooted [] (splitChars '/' p)
    let out := joinChars '/' comps
    if rooted then '/' :: out
    else if out = [] then ['.'] else out

/-- The prefix of `p` up to and including its last `/`, or `[]` when `p`
has none: the slice `path[:i+1]` that `filepath.Dir` cleans. -/
def takeToLastSep (p : Chars) : Chars :=
  (p.reverse.dropWhile (· ≠ '/')).reverse

/-- Go's `path/filepath.Dir`. -/
def dirChars (p : Chars) : Chars :=
  cleanChars (takeToLastSep p)

/-- Go's `path/filepath.Base`. -/
def baseChars (p : Chars) : Chars :=
  if p = [] then ['.']
  else
    let q := (p.reverse.dropWhile (· = '/')).reverse
    let name := (q.reverse.takeWhile (· ≠ '/')).reverse
    if name = [] then ['/'] else name

/-- Go's `path/filepath.Join` on two elements: empty elements are
skipped, the rest joined with `/` and cleaned; all-empty yields `""`. -/
def joinChars2 (a b : Chars) : Chars :=
  if a ≠ [] then cleanChars (a ++ '/' :: b)
  else if b ≠ [] then cleanChars b
  else []

/-- The decimal digit character of `n % 10`-style values below ten. -/
def digitChar : Nat → Char
  | 0 => '0' | 1 => '1' | 2 => '2' | 3 => '3' | 4 => '4'
  | 5 => '5' | 6 => '6' | 7 => '7' | 8 => '8' | _ => '9'

/-- Decimal digits of `n`, fuelled so the kernel can evaluate it; fuel
`n` always suffices. Mirrors `fmt.Sprintf("%d", n)` for `n ≥ 0`. -/
def natToDigitsAux : Nat → Nat → List Char
  | 0, _ => []
  | fuel + 1, n =>
    if n < 10 then [digitChar n]
    else natToDigitsAux fuel (n / 10) ++ [digitChar (n % 10)]

/-- Decimal rendering of a natural number as characters. -/
def natToDigits (n : Nat) : List Char :=
  natToDigitsAux (n + 1) n

/-- Whether `c` is one of `0`..`9`, the test `strconv` applies to every
character after the optional sign. -/
def isDigitChar (c : Char) : Bool :=
  decide ('0' ≤ c) && decide (c ≤ '9')

/-- Value of a digit run, most significant first. -/
def digitsVal (ds : List Char) : Nat :=
  ds.foldl (fun a c => a * 10 + (c.toNat - 48)) 0

/-- Go's `strconv.Atoi` (= `ParseInt(s, 10, 0)` on a 64-bit platform):
optional sign, one or more decimal digits, value within `int64` range;
`none` on anything else. -/
def atoiChars (s : Chars) : Option Int :=
  let sign : Int := if s.head? = some '-' then -1 else 1
  let ds := if s.head? = some '-' ∨ s.head? = some '+' then s.drop 1 else s
  if ds = [] then none
  else if ds.all isDigitChar then
    let v : Int := sign * (digitsVal ds : Int)
    if -(2 ^ 63) ≤ v ∧ v ≤ 2 ^ 63 - 1 then some v else none
  else none

/-- The error cases of `reconstructPath`. `invalidFormat` is the
"invalid delta format" return (no `:` in a `-`-prefixed token),
`invalidLevels` the "invalid levels in delta" return (`strconv.Atoi`
failed), `depthUnderflow` the "cannot go up N levels" return, and
`sliceBound` the run-time slice-bound panic Go raises when a negative
parsed level makes `parts[:len(parts)-levelsUp]` reach past the end. -/
inductive DecodeErr where
  | invalidFormat
  | invalidLevels
  | depthUnderflow
  | sliceBound
  deriving DecidableEq, Repr

deriving instance DecidableEq for Except

/-- `reconstructPath` of the source on character lists: takes the last
full path and a delta line and reconstructs the full path. -/
def reconstructChars (lastPath deltaPath : Chars) : Except DecodeErr Chars :=
  if lastPath = [] ∨ ¬ deltaPath.head? = some '-' then
    if lastPath ≠ [] ∧ ¬ deltaPath.head? = some '-' then
      .ok (joinChars2 (dirChars lastPath) deltaPath)
    else
      .ok deltaPath
  else
    if ¬ deltaPath.contains ':' then .error .invalidFormat
    else
      let levelsUpStr := (deltaPath.drop 1).takeWhile (· ≠ ':')
      let suffix := ((deltaPath.drop 1).dropWhile (· ≠ ':')).drop 1
      match atoiChars levelsUpStr with
      | none => .error .invalidLevels
      | some levelsUp =>
        let lastDir := dirChars lastPath
        let parts := splitChars '/' lastDir
        if (parts.length : Int) < levelsUp then .error .depthUnderflow
        else if levelsUp < 0 then .error .sliceBound
        else
          let kept := parts.take (parts.length - levelsUp.toNat)
          if kept = [] then .ok suffix
          else
            let newPath := joinChars '/' kept
            if suffix ≠ [] then .ok (joinChars2 newPath suffix)
            else .ok newPath

/-- `calculateDeltaPath` of the source on character lists: the
compressed representation of `currentPath` relative to `lastPath`. -/
def calculateDeltaChars (lastPath currentPath : Chars) : Chars :=
  if lastPath = [] then currentPath
  else
    let lastDir := dirChars lastPath
    let currentDir := dirChars currentPath
    let currentFile := baseChars currentPath
    let lastParts := splitChars '/' lastDir
    let currentParts := splitChars '/' currentDir
    let commonLen := commonPrefixLen lastParts currentParts
    let levelsUp := lastParts.length - commonLen
    let newParts := currentParts.drop commonLen ++ [currentFile]
    let newSuffix := joinChars '/' newParts
    if levelsUp = 0 then newSuffix
    else '-' :: natToDigits levelsUp ++ ':' :: newSuffix

/-- `calculateDeltaPath(lastPath, currentPath)` from
`src/meta-extractor/main.go`. -/
def calculateDeltaPath (lastPath currentPath : String) : String :=
  String.mk (calculateDeltaChars lastPath.toList currentPath.toList)

/-- `reconstructPath(lastPath, deltaPath)` from
`src/meta-extractor/main.go`. -/
def reconstructPath (lastPath deltaPath : String) : Except DecodeErr String :=
  (reconstructChars lastPath.toList deltaPath.toList).map String.mk

/-- `filepath.Dir` at string level, as `walkDirectory` applies it. -/
def goDir (p : String) : String :=
  String.mk (dirChars p.toList)

/-- The spec's `DeltaToken` wire variants. -/
inductive DeltaToken where
  | literal (p : String)
  | ascend (levels : Nat) (suffix : String)
  deriving DecidableEq, Repr

/-- Serialization of a token to one line's text: a literal is the path
itself, `Ascend(0, s)` is the bare suffix, and `Ascend(levels, s)` with
a positive count is `-<levels>:<s>`. -/
def serializeToken : DeltaToken → String
  | .literal p => p
  | .ascend l s =>
    if l = 0 then s else String.mk ('-' :: natToDigits l ++ ':' :: s.toList)

/-- Encoder as the spec words it: with no previous path a `Literal`;
otherwise split both directories into components, take the common
leading prefix length, ascend by the previous directory's component
count minus it, and descend by the remaining current components plus
the file name. -/
def specEncode (prev current : String) : DeltaToken :=
  if prev = "" then .literal current
  else
    let prevParts := splitChars '/' (dirChars prev.toList)
    let curParts := splitChars '/' (dirChars current.toList)
    let common := commonPrefixLen prevParts curParts
    let levels := prevParts.length - common
    let suffix := joinChars '/' (curParts.drop common ++ [baseChars current.toList])
    .ascend levels (String.mk suffix)

/-- `maxFileSize` of the source: 200MB in bytes. -/
def maxFileSize : Nat := 200 * 1024 * 1024

/-- `ErrMaxFilesReached`, the only error the modelled writer raises
(file-system failures are outside the model). -/
inductive WriteErr where
  | maxFilesReached
  deriving DecidableEq, Repr

/-- State of `RotatingWriter`. The file system is replaced by the
contents written: `sealed` holds the line lists of the segments already
closed and compressed, in ascending segment-number order, and `current`
the lines of the open segment (`none` before the first `rotate`). -/
structure RWState where
  sealed : List (List String)
  current : Option (List String)
  currentSize : Nat
  fileNumber : Nat
  maxFiles : Nat
  lastWrittenPath : String
  deriving DecidableEq, Repr

/-- Byte count `fmt.Fprintf(w, "%s\n", line)` reports for one line. -/
def lineBytes (line : String) : Nat :=
  line.utf8ByteSize + 1

/-- Plaintext byte size of a segment's lines. -/
def segBytes (seg : List String) : Nat :=
  (seg.map lineBytes).sum

/-- `RotatingWriter.rotate`: refuse when the configured maximum segment
count is already reached, otherwise seal (close and compress) the open
segment, if any, and open the next one. -/
def rotate (s : RWState) : Except WriteErr RWState :=
  if s.maxFiles > 0 ∧ s.fileNumber > s.maxFiles then .error .maxFilesReached
  else
    .ok { s with
      sealed := s.sealed ++ (match s.current with | some c => [c] | none => [])
      current := some []
      currentSize := 0
      fileNumber := s.fileNumber + 1 }

/-- `NewRotatingWriter(outDir, maxFiles, startFileNum)`: fresh state,
then the initial `rotate` that creates the first segment. -/
def newRotatingWriter (maxFiles startFileNum : Nat) : Except WriteErr RWState :=
  rotate
    { sealed := []
      current := none
      currentSize := 0
      fileNumber := startFileNum
      maxFiles := maxFiles
      lastWrittenPath := "" }

/-- `RotatingWriter.WritePath`: encode against the last written path,
rotate first when the line would push the open segment past
`maxFileSize`, then append the line whole and update the state. -/
def WritePath (s : RWState) (fullPath : String) : Except WriteErr RWState :=
  let deltaPath := calculateDeltaPath s.lastWrittenPath fullPath
  let lineSize := lineBytes deltaPath
  let write (t : RWState) : RWState :=
    { t with
      current := some (t.current.getD [] ++ [deltaPath])
      currentSize := t.currentSize + lineSize
      lastWrittenPath := fullPath }
  if s.currentSize + lineSize > maxFileSize then
    match rotate s with
    | .error e => .error e
    | .ok s' => .ok (write s')
  else .ok (write s)

/-- `RotatingWriter.Close`: seal (close and compress) the open segment. -/
def closeWriter (s : RWState) : RWState :=
  match s.current with
  | some c => { s with sealed := s.sealed ++ [c], current := none }
  | none => s

/-- A run of `WritePath` calls in order. -/
def writeAll (s : RWState) : List String → Except WriteErr RWState
  | [] => .ok s
  | p :: rest =>
    match WritePath s p with
    | .error e => .error e
    | .ok s' => writeAll s' rest

/-- The state `NewRotatingWriter(outDir, 0, 1)` returns: no segment
budget, segment 1 open and empty. -/
def freshWriter : RWState :=
  { sealed := []
    current := some []
    currentSize := 0
    fileNumber := 2
    maxFiles := 0
    lastWrittenPath := "" }

/-- The scanner loop of `inflateDirectory` over one segment's lines:
decode each line against the running last path, collect the
reconstructed full paths and return them with the final last path. -/
def inflateSegLines (lastPath : String) : List String → Except DecodeErr (List String × String)
  | [] => .ok ([], lastPath)
  | d :: rest =>
    match reconstructPath lastPath d with
    | .error e => .error e
    | .ok p =>
      match inflateSegLines p rest with
      | .error e => .error e
      | .ok (ps, fin) => .ok (p :: ps, fin)

/-- The file loop of `inflateDirectory`: process the segments in order,
carrying the decoder's last path across segment boundaries. -/
def inflateSegsFrom (lastPath : String) : List (List String) → Except DecodeErr (List String)
  | [] => .ok []
  | seg :: rest =>
    match inflateSegLines lastPath seg with
    | .error e => .error e
    | .ok (ps, fin) =>
      match inflateSegsFrom fin rest with
      | .error e => .error e
      | .ok qs => .ok (ps ++ qs)

/-- `inflateDirectory` of the source on the sealed segments, given in
ascending segment-number order: decoder state starts empty and is
carried across every boundary. -/
def inflateDirectory (segs : List (List String)) : Except DecodeErr (List String) :=
  inflateSegsFrom "" segs

/-- The error `walkDirectory` surfaces when the writer's budget is
exhausted: Go's `MaxFilesError{LastPath: currentPath}`. -/
inductive WalkError where
  | maxFiles (lastPath : String)
  deriving DecidableEq, Repr

/-- The `filepath.WalkDir` callback loop of `walkDirectory` over the
traversal's entries: skip until the resume path is seen, then write the
first file of every newly entered directory; a budget error is wrapped
with `currentPath`, the entry being processed. -/
def walkAux (resumePath : String) :
    Bool → String → RWState → List (String × Bool) → Except WalkError RWState
  | _, _, s, [] => .ok s
  | false, lastDir, s, (path, _) :: rest =>
    if path = resumePath then walkAux resumePath true lastDir s rest
    else walkAux resumePath false lastDir s rest
  | true, lastDir, s, (path, isDir) :: rest =>
    match isDir with
    | false =>
      let dir := goDir path
      if dir ≠ lastDir then
        match WritePath s path with
        | .error _ => .error (.maxFiles path)
        | .ok s' => walkAux resumePath true dir s' rest
      else walkAux resumePath true lastDir s rest
    | true => walkAux resumePath true lastDir s rest

/-- `walkDirectory(root, writer, resumePath)` with the traversal
abstracted as its ordered list of `(path, isDir)` entries. -/
def walkDirectory (entries : List (String × Bool)) (s : RWState) (resumePath : String) :
    Except WalkError RWState :=
  walkAux resumePath (resumePath = "") "" s entries

/-- Outcomes of the file-system steps `compressFile` performs, in the
order the source attempts them. -/
structure CompressEnv where
  openOk : Bool
  createOk : Bool
  copyOk : Bool
  closeOk : Bool
  removeOk : Bool
  deriving DecidableEq, Repr

/-- `compressFile(filePath)` over an outcome environment: the result of
the call paired with whether the plaintext original was removed. Each
early `return fmt.Errorf(...)` of the source is one branch; the
original is removed only by the final `os.Remove`, after the gzip
stream was fully written and flushed. -/
def compressFile (env : CompressEnv) : Except String Unit × Bool :=
  if ¬ env.openOk then (.error "failed to open file for compression", false)
  else if ¬ env.createOk then (.error "failed to create compressed file", false)
  else if ¬ env.copyOk then (.error "failed to compress data", false)
  else if ¬ env.closeOk then (.error "failed to close gzip writer", false)
  else if ¬ env.removeOk then (.error "failed to remove original file", false)
  else (.ok (), true)

/-- A well-formed path component: non-empty, no separator, not one of
the relative markers `.` and `..`, and not beginning with the delta
marker `-` (a component that does would make a sequence of components
collide with the `-<levels>:<suffix>` wire form). -/
def okComp (c : Chars) : Prop :=
  c ≠ [] ∧ '/' ∉ c ∧ c ≠ ['.'] ∧ c ≠ ['.', '.'] ∧ c.head? ≠ some '-'

/-- A well-formed absolute path: a leading `/` followed by at least one
well-formed component, `/`-separated, and fewer than `2^63` components
(a Go string's length is bounded by `int`). -/
def validPathChars (p : Chars) : Prop :=
  p.head? = some '/' ∧
  splitChars '/' (p.drop 1) ≠ [] ∧
  (splitChars '/' (p.drop 1)).length < 2 ^ 63 ∧
  ∀ c ∈ splitChars '/' (p.drop 1), okComp c

/-- `validPathChars` at string level. -/
def validPath (p : String) : Prop :=
  validPathChars p.toList

/-- The absolute path with components `cs`. -/
def absOf (cs : List Chars) : Chars :=
  '/' :: joinChars '/' cs

/-- Componentwise form of `validPathChars`. -/
def wfComps (cs : List Chars) : Prop :=
  cs ≠ [] ∧ cs.length < 2 ^ 63 ∧ ∀ c ∈ cs, okComp c

instance (c : Chars) : Decidable (okComp c) := by
  unfold okComp; infer_instance

instance (p : Chars) : Decidable (validPathChars p) := by
  unfold validPathChars; infer_instance

instance (p : String) : Decidable (validPath p) := by
  unfold validPath; infer_instance

/-- The pairs the delta chain survives: the two directories share their
first real component (so the decoder's truncation keeps a non-empty
prefix), or the second path sits directly under the root (so the
encoded suffix itself carries the leading separator). -/
def goodPair (a b : String) : Prop :=
  2 ≤ commonPrefixLen (splitChars '/' (dirChars a.toList))
        (splitChars '/' (dirChars b.toList)) ∨
  dirChars b.toList = ['/']

instance (a b : String) : Decidable (goodPair a b) := by
  unfold goodPair; infer_instance

/-- `goodPair` along every adjacent pair of a path sequence. -/
def adjOKB : List String → Bool
  | a :: b :: rest => decide (goodPair a b) && adjOKB (b :: rest)
  | _ => true

/-- The encoded lines a chain of `WritePath` calls produces, given the
writer's last written path. -/
def deltaLines : String → List String → List String
  | _, [] => []
  | last, p :: rest => calculateDeltaPath last p :: deltaLines p rest

/-- Every line held by a writer state, sealed segments first, in write
order. -/
def allLines (s : RWState) : List String :=
  s.sealed.flatten ++ s.current.getD []

/-- A token in the `Ascend` wire form: it begins with `-`. -/
def ascendFormB (t : Chars) : Bool :=
  decide (t.head? = some '-')

/-- The levels field of an `Ascend`-form token: the text between the
leading `-` and the first `:`. -/
def levelsField (t : Chars) : Chars :=
  (t.drop 1).takeWhile (· ≠ ':')

/-- The claim's parse-failure condition on a token: `Ascend` form but no
`:` separator, or a levels field `strconv.Atoi` cannot parse. -/
def malformedCondB (t : Chars) : Bool :=
  ascendFormB t && (!(t.contains ':') || (atoiChars (levelsField t)).isNone)

/-- The claim's depth-underflow condition: `Ascend` form, parseable, and
the parsed levels exceeds the component count of the previous path's
directory (as the decoder splits it). -/
def underflowCondB (prev t : Chars) : Bool :=
  ascendFormB t && t.contains ':' &&
    (match atoiChars (levelsField t) with
     | some n => decide (((splitChars '/' (dirChars prev)).length : Int) < n)
     | none => false)

/-- A decode result that reports the `MalformedDelta` family: either of
the two parse-failure returns of `reconstructPath`. -/
def isMalformed (r : Except DecodeErr String) : Prop :=
  r = .error .invalidFormat ∨ r = .error .invalidLevels

instance (r : Except DecodeErr String) : Decidable (isMalformed r) := by
  unfold isMalformed; infer_instance

/-- Size bookkeeping invariant of a writer state: the tracked byte count
matches the lines of the open segment; the open segment is within the
bound unless it holds exactly one line (the oversized line whose arrival
forced a rotation and was then written alone); and every sealed segment
satisfies the same bound. -/
def writerInv (s : RWState) : Prop :=
  s.currentSize = segBytes (s.current.getD []) ∧
  (s.currentSize ≤ maxFileSize ∨ ∃ l, s.current = some [l]) ∧
  (∀ seg ∈ s.sealed, segBytes seg ≤ maxFileSize ∨ ∃ l, seg = [l])

theorem dropWhile_append_of_all {p : Char → Bool} :
    ∀ xs ys : Chars, (∀ x ∈ xs, p x = true) →
      List.dropWhile p (xs ++ ys) = List.dropWhile p ys := by
  intro xs
  induction xs with
  | nil => intro ys _; rfl
  | cons x xs ih =>
    intro ys h
    have hx : p x = true := h x (by simp)
    simp only [List.cons_append, List.dropWhile_cons, hx, if_true]
    exact ih ys (fun a ha => h a (by simp [ha]))

theorem dropWhile_append_of_head_false {p : Char → Bool} :
    ∀ xs ys : Chars, xs ≠ [] → (∀ x ∈ xs, p x = false) →
      List.dropWhile p (xs ++ ys) = xs ++ ys := by
  intro xs ys hne h
  cases xs with
  | nil => exact absurd rfl hne
  | cons x xs =>
    have hx : p x = false := h x (by simp)
    simp [List.dropWhile_cons, hx]

theorem dropWhile_append_stop {p : Char → Bool} (xs : Chars) (y : Char) (r : Chars)
    (hall : ∀ x ∈ xs, p x = true) (hy : p y = false) :
    List.dropWhile p (xs ++ y :: r) = y :: r := by
  rw [dropWhile_append_of_all xs (y :: r) hall]
  simp [List.dropWhile_cons, hy]

theorem takeWhile_append_stop {p : Char → Bool} :
    ∀ xs : Chars, ∀ (y : Char) (r : Chars), (∀ x ∈ xs, p x = true) → p y = false →
      List.takeWhile p (xs ++ y :: r) = xs := by
  intro xs
  induction xs with
  | nil =>
    intro y r _ hy
    simp [List.takeWhile_cons, hy]
  | cons x xs ih =>
    intro y r h hy
    have hx : p x = true := h x (by simp)
    simp only [List.cons_append, List.takeWhile_cons, hx, if_true]
    rw [ih y r (fun a ha => h a (by simp [ha])) hy]

theorem splitChars_ne_nil (sep : Char) : ∀ l : Chars, splitChars sep l ≠ [] := by
  intro l
  induction l with
  | nil => simp [splitChars]
  | cons c rest ih =>
    by_cases hc : c = sep
    · simp [splitChars, hc]
    · simp only [splitChars, if_neg hc]
      rcases h : splitChars sep rest with _ | ⟨hd, tl⟩ <;> simp

theorem splitChars_cons_sep (sep : Char) (l : Chars) :
    splitChars sep (sep :: l) = [] :: splitChars sep l := by
  simp [splitChars]

theorem splitChars_singleton {sep : Char} : ∀ c : Chars, sep ∉ c → splitChars sep c = [c] := by
  intro c
  induction c with
  | nil => simp [splitChars]
  | cons x xs ih =>
    intro h
    have hx : x ≠ sep := fun e => h (by simp [e])
    have := ih (fun e => h (by simp [e]))
    simp only [splitChars, if_neg hx, this]

theorem splitChars_append_sep {sep : Char} :
    ∀ x l : Chars, sep ∉ x → splitChars sep (x ++ sep :: l) = x :: splitChars sep l := by
  intro x
  induction x with
  | nil => intro l _; simp [splitChars]
  | cons c x ih =>
    intro l h
    have hc : c ≠ sep := fun e => h (by simp [e])
    have h2 := ih l (fun e => h (by simp [e]))
    simp [List.cons_append, splitChars, if_neg hc, h2]

theorem splitChars_append_end {sep : Char} :
    ∀ l : Chars, splitChars sep (l ++ [sep]) = splitChars sep l ++ [[]] := by
  intro l
  induction l with
  | nil => simp [splitChars]
  | cons c rest ih =>
    by_cases hc : c = sep
    · subst hc
      simp only [List.cons_append, splitChars_cons_sep, ih, List.cons_append]
    · rcases h : splitChars sep rest with _ | ⟨hd, tl⟩
      · exact absurd h (splitChars_ne_nil sep rest)
      · simp [List.cons_append, splitChars, if_neg hc, ih, h]

theorem joinChars_cons (sep : Char) (x : Chars) (y : Chars) (ys : List Chars) :
    joinChars sep (x :: y :: ys) = x ++ sep :: joinChars sep (y :: ys) := rfl

theorem joinChars_append {sep : Char} :
    ∀ cs ds : List Chars, cs ≠ [] → ds ≠ [] →
      joinChars sep (cs ++ ds) = joinChars sep cs ++ sep :: joinChars sep ds := by
  intro cs
  induction cs with
  | nil => intro ds h _; exact absurd rfl h
  | cons x cs ih =>
    intro ds _ hds
    cases cs with
    | nil =>
      cases ds with
      | nil => exact absurd rfl hds
      | cons d ds' => simp [joinChars]
    | cons y cs' =>
      have h2 := ih ds (by simp) hds
      rw [List.cons_append] at h2
      simp only [List.cons_append, joinChars_cons, h2, List.append_assoc]

theorem joinChars_cons_ne_nil {sep : Char} (c : Chars) (rest : List Chars) (hc : c ≠ []) :
    joinChars sep (c :: rest) ≠ [] := by
  cases rest with
  | nil => simpa [joinChars]
  | cons y ys =>
    simp only [joinChars_cons]
    cases c with
    | nil => exact absurd rfl hc
    | cons a as => simp

theorem joinChars_cons_head {sep : Char} (c : Chars) (rest : List Chars) (hc : c ≠ []) :
    (joinChars sep (c :: rest)).head? = c.head? := by
  cases rest with
  | nil => rfl
  | cons y ys =>
    simp only [joinChars_cons]
    cases c with
    | nil => exact absurd rfl hc
    | cons a as => rfl

theorem splitChars_joinChars {sep : Char} :
    ∀ cs : List Chars, cs ≠ [] → (∀ c ∈ cs, sep ∉ c) →
      splitChars sep (joinChars sep cs) = cs := by
  intro cs
  induction cs with
  | nil => intro h _; exact absurd rfl h
  | cons x cs ih =>
    intro _ h
    cases cs with
    | nil => exact splitChars_singleton x (h x (by simp))
    | cons y cs' =>
      have hx : sep ∉ x := h x (by simp)
      have := ih (by simp) (fun c hc => h c (by simp [hc]))
      rw [joinChars_cons, splitChars_append_sep x _ hx, this]

theorem joinChars_splitChars {sep : Char} :
    ∀ l : Chars, joinChars sep (splitChars sep l) = l := by
  intro l
  induction l with
  | nil => rfl
  | cons c rest ih =>
    by_cases hc : c = sep
    · rw [hc, splitChars_cons_sep]
      rcases h : splitChars sep rest with _ | ⟨hd, tl⟩
      · exact absurd h (splitChars_ne_nil sep rest)
      · rw [h] at ih
        rw [joinChars_cons, List.nil_append, ih]
    · simp only [splitChars, if_neg hc]
      rcases h : splitChars sep rest with _ | ⟨hd, tl⟩
      · exact absurd h (splitChars_ne_nil sep rest)
      · rw [h] at ih
        cases tl with
        | nil => simp only [joinChars] at ih ⊢; rw [ih]
        | cons u tl' =>
          rw [joinChars_cons] at ih
          rw [joinChars_cons, List.cons_append, ih]

theorem filter_ne_nil_keep (l : List Chars) (h : ∀ c ∈ l, c ≠ []) :
    l.filter (fun c => decide (c ≠ [])) = l := by
  refine List.filter_eq_self.mpr ?_
  intro a ha
  simpa using h a ha

theorem cleanSegsAux_plain (rooted : Bool) :
    ∀ (pieces : List Chars) (acc : List Chars),
      (∀ c ∈ pieces, c ≠ ['.'] ∧ c ≠ ['.', '.']) →
      cleanSegsAux rooted acc pieces =
        acc.reverse ++ pieces.filter (fun c => decide (c ≠ [])) := by
  intro pieces
  induction pieces with
  | nil => intro acc _; simp [cleanSegsAux]
  | cons c rest ih =>
    intro acc h
    have hrest : ∀ d ∈ rest, d ≠ ['.'] ∧ d ≠ ['.', '.'] :=
      fun d hd => h d (by simp [hd])
    by_cases hc0 : c = []
    · subst hc0
      show (if ([] : Chars) = [] ∨ ([] : Chars) = ['.'] then cleanSegsAux rooted acc rest
        else _) = _
      rw [if_pos (Or.inl rfl), ih acc hrest, List.filter_cons_of_neg (by simp)]
    · have hdot := (h c (by simp)).1
      have hddot := (h c (by simp)).2
      have hcond : ¬ (c = [] ∨ c = ['.']) := by
        rintro (e | e)
        · exact hc0 e
        · exact hdot e
      simp only [cleanSegsAux]
      rw [if_neg hcond, if_neg hddot, ih (c :: acc) hrest,
        List.filter_cons_of_pos (by simpa using hc0)]
      simp [List.append_assoc]

theorem cleanChars_cons_slash (q : Chars) :
    cleanChars ('/' :: q) =
      '/' :: joinChars '/' (cleanSegsAux true [] ([] :: splitChars '/' q)) := by
  simp [cleanChars, splitChars_cons_sep]

theorem cleanChars_wf (cs : List Chars) (hne : cs ≠ [])
    (hok : ∀ c ∈ cs, c ≠ [] ∧ '/' ∉ c ∧ c ≠ ['.'] ∧ c ≠ ['.', '.']) :
    cleanChars (absOf cs) = absOf cs := by
  have hplain : ∀ c ∈ ([] :: cs : List Chars), c ≠ ['.'] ∧ c ≠ ['.', '.'] := by
    intro c hc
    rcases List.mem_cons.mp hc with hc | hc
    · subst hc; exact ⟨by simp, by simp⟩
    · exact ⟨(hok c hc).2.2.1, (hok c hc).2.2.2⟩
  rw [absOf, cleanChars_cons_slash,
    splitChars_joinChars cs hne (fun c hc => (hok c hc).2.1),
    cleanSegsAux_plain true ([] :: cs) [] hplain,
    List.filter_cons_of_neg (by simp),
    filter_ne_nil_keep cs (fun c hc => (hok c hc).1)]
  simp [absOf]

theorem takeToLastSep_append (l : Chars) (c : Chars) (hc : '/' ∉ c) :
    takeToLastSep (l ++ '/' :: c) = l ++ ['/'] := by
  rw [takeToLastSep, List.reverse_append, List.reverse_cons, List.append_assoc]
  rw [dropWhile_append_of_all c.reverse (['/'] ++ l.reverse)
    (by intro x hx
        have hm : x ∈ c := List.mem_reverse.mp hx
        simp only [decide_eq_true_eq]
        exact fun e => hc (e ▸ hm))]
  simp

theorem dirChars_root (c : Chars) (hc : '/' ∉ c) : dirChars ('/' :: c) = ['/'] := by
  rw [dirChars]
  have h1 : takeToLastSep ('/' :: c) = ['/'] := by
    have h2 := takeToLastSep_append [] c hc
    simpa using h2
  rw [h1]
  decide

theorem absOf_concat (cs : List Chars) (c : Chars) (hne : cs ≠ []) :
    absOf (cs ++ [c]) = ('/' :: joinChars '/' cs) ++ '/' :: c := by
  rw [absOf, joinChars_append cs [c] hne (by simp)]
  simp [joinChars]

theorem dirChars_concat (cs : List Chars) (c : Chars) (hne : cs ≠ [])
    (hok : ∀ d ∈ cs, d ≠ [] ∧ '/' ∉ d ∧ d ≠ ['.'] ∧ d ≠ ['.', '.'])
    (hc : '/' ∉ c) :
    dirChars (absOf (cs ++ [c])) = absOf cs := by
  rw [dirChars, absOf_concat cs c hne, takeToLastSep_append _ c hc]
  have hplain : ∀ d ∈ ([] :: (cs ++ [[]]) : List Chars), d ≠ ['.'] ∧ d ≠ ['.', '.'] := by
    intro d hd
    rcases List.mem_cons.mp hd with hd | hd
    · subst hd; exact ⟨by simp, by simp⟩
    · rcases List.mem_append.mp hd with hd | hd
      · exact ⟨(hok d hd).2.2.1, (hok d hd).2.2.2⟩
      · have : d = [] := by simpa using hd
        subst this; exact ⟨by simp, by simp⟩
  have hstep : ('/' :: joinChars '/' cs) ++ ['/'] = '/' :: (joinChars '/' cs ++ ['/']) := by
    simp
  rw [hstep, cleanChars_cons_slash, splitChars_append_end,
    splitChars_joinChars cs hne (fun d hd => (hok d hd).2.1),
    cleanSegsAux_plain true ([] :: (cs ++ [[]])) [] hplain,
    List.filter_cons_of_neg (by simp), List.filter_append,
    filter_ne_nil_keep cs (fun d hd => (hok d hd).1)]
  simp [absOf]

theorem baseChars_append (l : Chars) (c : Chars) (hc : '/' ∉ c) (hcne : c ≠ []) :
    baseChars (l ++ '/' :: c) = c := by
  have hp : (l ++ '/' :: c) ≠ [] := by simp
  have hrev : (l ++ '/' :: c).reverse = c.reverse ++ '/' :: l.reverse := by
    rw [List.reverse_append, List.reverse_cons]
    simp [List.append_assoc]
  have hdrop : (l ++ '/' :: c).reverse.dropWhile (fun x => decide (x = '/')) =
      c.reverse ++ '/' :: l.reverse := by
    rw [hrev]
    refine dropWhile_append_of_head_false c.reverse ('/' :: l.reverse) (by simpa using hcne) ?_
    intro x hx
    have hm : x ∈ c := List.mem_reverse.mp hx
    simp only [decide_eq_false_iff_not]
    exact fun e => hc (e ▸ hm)
  have htake : (c.reverse ++ '/' :: l.reverse).takeWhile (fun x => decide (x ≠ '/')) =
      c.reverse := by
    refine takeWhile_append_stop c.reverse '/' l.reverse ?_ (by simp)
    intro x hx
    have hm : x ∈ c := List.mem_reverse.mp hx
    simp only [decide_eq_true_eq]
    exact fun e => hc (e ▸ hm)
  simp only [baseChars, if_neg hp]
  rw [List.reverse_reverse, hdrop, htake, List.reverse_reverse, if_neg hcne]

theorem baseChars_abs (cs : List Chars) (c : Chars) (hc : '/' ∉ c) (hcne : c ≠ []) :
    baseChars (absOf (cs ++ [c])) = c := by
  cases cs with
  | nil =>
    have h1 : absOf ([] ++ [c]) = [] ++ '/' :: c := by simp [absOf, joinChars]
    rw [h1, baseChars_append [] c hc hcne]
  | cons x xs =>
    rw [absOf_concat (x :: xs) c (by simp), baseChars_append _ c hc hcne]

theorem commonPrefixLen_cons_eq (x : Chars) (xs ys : List Chars) :
    commonPrefixLen (x :: xs) (x :: ys) = commonPrefixLen xs ys + 1 := by
  simp [commonPrefixLen]

theorem commonPrefixLen_cons_ne (a b : Chars) (xs ys : List Chars) (h : a ≠ b) :
    commonPrefixLen (a :: xs) (b :: ys) = 0 := by
  simp [commonPrefixLen, h]

theorem commonPrefixLen_le_left : ∀ l1 l2 : List Chars, commonPrefixLen l1 l2 ≤ l1.length := by
  intro l1
  induction l1 with
  | nil => intro l2; simp [commonPrefixLen]
  | cons a xs ih =>
    intro l2
    cases l2 with
    | nil => simp [commonPrefixLen]
    | cons b ys =>
      by_cases h : a = b
      · subst h
        rw [commonPrefixLen_cons_eq]
        simpa using ih ys
      · rw [commonPrefixLen_cons_ne a b xs ys h]
        simp

theorem commonPrefixLen_take : ∀ l1 l2 : List Chars,
    l1.take (commonPrefixLen l1 l2) = l2.take (commonPrefixLen l1 l2) := by
  intro l1
  induction l1 with
  | nil => intro l2; simp [commonPrefixLen]
  | cons a xs ih =>
    intro l2
    cases l2 with
    | nil => simp [commonPrefixLen]
    | cons b ys =>
      by_cases h : a = b
      · subst h
        rw [commonPrefixLen_cons_eq, List.take_succ_cons, List.take_succ_cons, ih ys]
      · rw [commonPrefixLen_cons_ne a b xs ys h]
        simp

theorem digitChar_toNat (n : Nat) (h : n < 10) : (digitChar n).toNat = 48 + n := by
  interval_cases n <;> decide

theorem digitChar_isDigit (n : Nat) (h : n < 10) : isDigitChar (digitChar n) = true := by
  interval_cases n <;> decide

theorem digitsVal_append_one (l : List Char) (c : Char) :
    digitsVal (l ++ [c]) = 10 * digitsVal l + (c.toNat - 48) := by
  simp [digitsVal, List.foldl_append, Nat.mul_comm]

theorem natToDigitsAux_spec : ∀ fuel n : Nat, n < fuel →
    natToDigitsAux fuel n ≠ [] ∧ (∀ c ∈ natToDigitsAux fuel n, isDigitChar c = true) ∧
      digitsVal (natToDigitsAux fuel n) = n := by
  intro fuel
  induction fuel with
  | zero => intro n h; omega
  | succ fuel ih =>
    intro n h
    by_cases h10 : n < 10
    · simp only [natToDigitsAux, if_pos h10]
      refine ⟨by simp, ?_, ?_⟩
      · intro c hc
        have : c = digitChar n := by simpa using hc
        subst this
        exact digitChar_isDigit n h10
      · simp only [digitsVal, List.foldl_cons, List.foldl_nil]
        rw [digitChar_toNat n h10]
        omega
    · have hpos : 0 < n := by omega
      have hdiv : n / 10 < fuel :=
        lt_of_lt_of_le (Nat.div_lt_self hpos (by norm_num)) (by omega)
      obtain ⟨hne, hdig, hval⟩ := ih (n / 10) hdiv
      simp only [natToDigitsAux, if_neg h10]
      refine ⟨by simp [hne], ?_, ?_⟩
      · intro c hc
        rcases List.mem_append.mp hc with hc | hc
        · exact hdig c hc
        · have : c = digitChar (n % 10) := by simpa using hc
          subst this
          exact digitChar_isDigit (n % 10) (Nat.mod_lt _ (by omega))
      · rw [digitsVal_append_one, hval, digitChar_toNat (n % 10) (Nat.mod_lt _ (by omega))]
        omega

theorem natToDigits_spec (n : Nat) :
    natToDigits n ≠ [] ∧ (∀ c ∈ natToDigits n, isDigitChar c = true) ∧
      digitsVal (natToDigits n) = n :=
  natToDigitsAux_spec (n + 1) n (by omega)

theorem isDigitChar_ne_colon {c : Char} (h : isDigitChar c = true) : c ≠ ':' := by
  intro e
  subst e
  exact absurd h (by decide)

theorem isDigitChar_ne_dash {c : Char} (h : isDigitChar c = true) : c ≠ '-' := by
  intro e
  subst e
  exact absurd h (by decide)

theorem isDigitChar_ne_plus {c : Char} (h : isDigitChar c = true) : c ≠ '+' := by
  intro e
  subst e
  exact absurd h (by decide)

theorem atoiChars_digits (ds : Chars) (hne : ds ≠ [])
    (hdig : ∀ c ∈ ds, isDigitChar c = true)
    (hrange : (digitsVal ds : Int) ≤ 2 ^ 63 - 1) :
    atoiChars ds = some ((digitsVal ds : Nat) : Int) := by
  obtain ⟨c, cs, rfl⟩ := List.exists_cons_of_ne_nil hne
  have hc := hdig c (by simp)
  have hdash : c ≠ '-' := isDigitChar_ne_dash hc
  have hplus : c ≠ '+' := isDigitChar_ne_plus hc
  have hnonneg : (0 : Int) ≤ (digitsVal (c :: cs) : Int) := Int.natCast_nonneg _
  have hsign : ¬ ((c :: cs).head? = some '-') := by simp [hdash]
  have hds : ¬ ((c :: cs).head? = some '-' ∨ (c :: cs).head? = some '+') := by
    simp [hdash, hplus]
  have hnil : ¬ ((c :: cs : Chars) = []) := by simp
  have hall : (c :: cs).all isDigitChar = true := List.all_eq_true.mpr hdig
  have hr : -(2 ^ 63 : Int) ≤ 1 * (digitsVal (c :: cs) : Int) ∧
      1 * (digitsVal (c :: cs) : Int) ≤ 2 ^ 63 - 1 := by
    constructor <;> omega
  simp only [atoiChars]
  rw [if_neg hds, if_neg hsign, if_neg hnil, if_pos hall, if_pos hr, one_mul]

theorem atoiChars_natToDigits (n : Nat) (hrange : (n : Int) ≤ 2 ^ 63 - 1) :
    atoiChars (natToDigits n) = some ((n : Nat) : Int) := by
  obtain ⟨hne, hdig, hval⟩ := natToDigits_spec n
  rw [atoiChars_digits _ hne hdig (by rw [hval]; exact hrange), hval]

theorem reconstructChars_nil (t : Chars) : reconstructChars [] t = .ok t := by
  simp [reconstructChars]

theorem reconstructChars_literal (prev t : Chars) (hprev : prev ≠ [])
    (ht : ¬ t.head? = some '-') :
    reconstructChars prev t = .ok (joinChars2 (dirChars prev) t) := by
  simp [reconstructChars, hprev, ht]

theorem reconstructChars_delta (prev : Chars) (L : Nat) (suffix : Chars)
    (hprev : prev ≠ []) (hrange : (L : Int) ≤ 2 ^ 63 - 1) :
    reconstructChars prev ('-' :: (natToDigits L ++ ':' :: suffix)) =
      (if ((splitChars '/' (dirChars prev)).length : Int) < (L : Int) then
        .error .depthUnderflow
      else
        if (splitChars '/' (dirChars prev)).take
            ((splitChars '/' (dirChars prev)).length - L) = [] then .ok suffix
        else if suffix ≠ [] then
          .ok (joinChars2
            (joinChars '/' ((splitChars '/' (dirChars prev)).take
              ((splitChars '/' (dirChars prev)).length - L))) suffix)
        else
          .ok (joinChars '/' ((splitChars '/' (dirChars prev)).take
            ((splitChars '/' (dirChars prev)).length - L)))) := by
  obtain ⟨hne, hdig, _⟩ := natToDigits_spec L
  have hhead : ('-' :: (natToDigits L ++ ':' :: suffix)).head? = some '-' := rfl
  have hcond1 : ¬ (prev = [] ∨
      ¬ ('-' :: (natToDigits L ++ ':' :: suffix)).head? = some '-') := by
    rw [hhead]
    simp [hprev]
  have hmem : (':' : Char) ∈ ('-' :: (natToDigits L ++ ':' :: suffix)) := by simp
  have hcont : ('-' :: (natToDigits L ++ ':' :: suffix)).contains ':' = true :=
    List.elem_eq_true_of_mem hmem
  have hcond2 : ¬ ¬ (('-' :: (natToDigits L ++ ':' :: suffix)).contains ':' = true) := by
    simp [hcont]
  have hdig2 : ∀ x ∈ natToDigits L, (fun x => decide (x ≠ ':')) x = true := by
    intro x hx
    simp only [decide_eq_true_eq]
    exact isDigitChar_ne_colon (hdig x hx)
  have htake : (('-' :: (natToDigits L ++ ':' :: suffix)).drop 1).takeWhile
      (fun x => decide (x ≠ ':')) = natToDigits L := by
    show (natToDigits L ++ ':' :: suffix).takeWhile (fun x => decide (x ≠ ':')) = _
    exact takeWhile_append_stop _ ':' suffix hdig2 (by simp)
  have hdropw : ((('-' :: (natToDigits L ++ ':' :: suffix)).drop 1).dropWhile
      (fun x => decide (x ≠ ':'))).drop 1 = suffix := by
    show ((natToDigits L ++ ':' :: suffix).dropWhile (fun x => decide (x ≠ ':'))).drop 1 = _
    rw [dropWhile_append_stop _ ':' suffix hdig2 (by simp)]
    rfl
  have hnotneg : ¬ (((L : Nat) : Int) < 0) := by
    simp [Int.natCast_nonneg]
  simp only [reconstructChars, if_neg hcond1, if_neg hcond2, htake, hdropw,
    atoiChars_natToDigits L hrange]
  by_cases hless : ((splitChars '/' (dirChars prev)).length : Int) < (L : Int)
  · rw [if_pos hless, if_pos hless]
  · rw [if_neg hless, if_neg hless, if_neg hnotneg, Int.toNat_natCast]

theorem cleanChars_slash_comp (c : Chars)
    (hok : c ≠ [] ∧ '/' ∉ c ∧ c ≠ ['.'] ∧ c ≠ ['.', '.']) :
    cleanChars ('/' :: c) = '/' :: c := by
  have habs : ('/' :: c : Chars) = absOf [c] := by simp [absOf, joinChars]
  rw [habs]
  refine cleanChars_wf [c] (by simp) ?_
  intro d hd
  have : d = c := by simpa using hd
  subst this
  exact hok

theorem joinChars2_abs (cs ds : List Chars) (hcs : cs ≠ []) (hds : ds ≠ [])
    (hok : ∀ d ∈ cs ++ ds, d ≠ [] ∧ '/' ∉ d ∧ d ≠ ['.'] ∧ d ≠ ['.', '.']) :
    joinChars2 (absOf cs) (joinChars '/' ds) = absOf (cs ++ ds) := by
  have habs : absOf cs ++ '/' :: joinChars '/' ds = absOf (cs ++ ds) := by
    rw [absOf, absOf, joinChars_append cs ds hcs hds]
    simp
  simp only [joinChars2]
  rw [if_pos (by simp [absOf] : (absOf cs) ≠ []), habs]
  exact cleanChars_wf (cs ++ ds) (by simp [hcs]) hok

theorem joinChars2_root (ds : List Chars) (hds : ds ≠ [])
    (hok : ∀ d ∈ ds, d ≠ [] ∧ '/' ∉ d ∧ d ≠ ['.'] ∧ d ≠ ['.', '.']) :
    joinChars2 ['/'] (joinChars '/' ds) = absOf ds := by
  have hplain : ∀ d ∈ ([] :: [] :: ds : List Chars), d ≠ ['.'] ∧ d ≠ ['.', '.'] := by
    intro d hd
    rcases List.mem_cons.mp hd with hd | hd
    · subst hd; exact ⟨by simp, by simp⟩
    · rcases List.mem_cons.mp hd with hd | hd
      · subst hd; exact ⟨by simp, by simp⟩
      · exact ⟨(hok d hd).2.2.1, (hok d hd).2.2.2⟩
  simp only [joinChars2]
  rw [if_pos (by simp : (['/'] : Chars) ≠ [])]
  have h1 : (['/'] : Chars) ++ '/' :: joinChars '/' ds = '/' :: ('/' :: joinChars '/' ds) := by
    simp
  rw [h1, cleanChars_cons_slash, splitChars_cons_sep,
    splitChars_joinChars ds hds (fun d hd => (hok d hd).2.1),
    cleanSegsAux_plain true ([] :: [] :: ds) [] hplain,
    List.filter_cons_of_neg (by simp), List.filter_cons_of_neg (by simp),
    filter_ne_nil_keep ds (fun d hd => (hok d hd).1)]
  simp [absOf]

theorem joinChars2_nil_clean (b : Chars) (hb : b ≠ []) :
    joinChars2 [] b = cleanChars b := by
  simp only [joinChars2]
  rw [if_neg (by simp), if_pos hb]

theorem okComp_fields {cs : List Chars} (h : ∀ c ∈ cs, okComp c) :
    ∀ c ∈ cs, c ≠ [] ∧ '/' ∉ c ∧ c ≠ ['.'] ∧ c ≠ ['.', '.'] := by
  intro c hc
  obtain ⟨h1, h2, h3, h4, _⟩ := h c hc
  exact ⟨h1, h2, h3, h4⟩

theorem absOf_ne_nil (cs : List Chars) : absOf cs ≠ [] := by
  simp [absOf]

theorem absOf_ne_root (cs : List Chars) (hne : cs ≠ []) (hok : ∀ c ∈ cs, okComp c) :
    absOf cs ≠ ['/'] := by
  obtain ⟨c, cs', rfl⟩ := List.exists_cons_of_ne_nil hne
  intro h
  have h2 : joinChars '/' (c :: cs') = [] := by
    simpa [absOf] using h
  exact joinChars_cons_ne_nil c cs' (hok c (by simp)).1 h2

theorem join_head_ne_dash (ds : List Chars) (hne : ds ≠ []) (hok : ∀ d ∈ ds, okComp d) :
    ¬ (joinChars '/' ds).head? = some '-' := by
  obtain ⟨d, ds', rfl⟩ := List.exists_cons_of_ne_nil hne
  rw [joinChars_cons_head d ds' (hok d (by simp)).1]
  exact (hok d (by simp)).2.2.2.2

theorem join_first_ne_nil (ds : List Chars) (hne : ds ≠ []) (hok : ∀ d ∈ ds, okComp d) :
    joinChars '/' ds ≠ [] := by
  obtain ⟨d, ds', rfl⟩ := List.exists_cons_of_ne_nil hne
  exact joinChars_cons_ne_nil d ds' (hok d (by simp)).1

theorem dirChars_abs_nil (cf : Chars) (hok : okComp cf) :
    dirChars (absOf [cf]) = ['/'] := by
  have h1 : absOf [cf] = '/' :: cf := by simp [absOf, joinChars]
  rw [h1]
  exact dirChars_root cf hok.2.1

theorem dirChars_abs_concat (cdc : List Chars) (cf : Chars) (hne : cdc ≠ [])
    (hok : ∀ c ∈ cdc ++ [cf], okComp c) :
    dirChars (absOf (cdc ++ [cf])) = absOf cdc := by
  refine dirChars_concat cdc cf hne ?_ (hok cf (by simp)).2.1
  intro d hd
  exact okComp_fields hok d (List.mem_append_left _ hd)

theorem splitChars_abs (cs : List Chars) (hne : cs ≠ []) (hok : ∀ c ∈ cs, okComp c) :
    splitChars '/' (absOf cs) = [] :: cs := by
  rw [absOf, splitChars_cons_sep,
    splitChars_joinChars cs hne (fun c hc => (hok c hc).2.1)]

theorem splitChars_root : splitChars '/' ['/'] = [[], []] := by decide

theorem baseChars_abs_ok (cdc : List Chars) (cf : Chars) (hok : okComp cf) :
    baseChars (absOf (cdc ++ [cf])) = cf :=
  baseChars_abs cdc cf hok.2.1 hok.1

theorem calculateDeltaChars_eval (a b : Chars) (ha : ¬ a = []) :
    calculateDeltaChars a b =
      (if (splitChars '/' (dirChars a)).length -
          commonPrefixLen (splitChars '/' (dirChars a)) (splitChars '/' (dirChars b)) = 0 then
        joinChars '/' ((splitChars '/' (dirChars b)).drop
          (commonPrefixLen (splitChars '/' (dirChars a)) (splitChars '/' (dirChars b))) ++
            [baseChars b])
      else
        '-' :: natToDigits ((splitChars '/' (dirChars a)).length -
          commonPrefixLen (splitChars '/' (dirChars a)) (splitChars '/' (dirChars b))) ++
            ':' :: joinChars '/' ((splitChars '/' (dirChars b)).drop
              (commonPrefixLen (splitChars '/' (dirChars a)) (splitChars '/' (dirChars b))) ++
                [baseChars b])) := by
  simp only [calculateDeltaChars, if_neg ha]

theorem validPathChars_iff (p : Chars) :
    validPathChars p ↔ ∃ cs, p = absOf cs ∧ wfComps cs := by
  constructor
  · rintro ⟨hhead, hne, hlen, hok⟩
    cases p with
    | nil => simp at hhead
    | cons c q =>
      have hc : c = '/' := by simpa using hhead
      subst hc
      refine ⟨splitChars '/' q, ?_, ?_, ?_, ?_⟩
      · show ('/' :: q : Chars) = '/' :: joinChars '/' (splitChars '/' q)
        rw [joinChars_splitChars]
      · simpa using hne
      · simpa using hlen
      · simpa using hok
  · rintro ⟨cs, rfl, hne, hlen, hok⟩
    have hsplit : splitChars '/' ((absOf cs).drop 1) = cs := by
      show splitChars '/' (joinChars '/' cs) = cs
      exact splitChars_joinChars cs hne (fun c hc => (hok c hc).2.1)
    refine ⟨rfl, ?_, ?_, ?_⟩
    · rw [hsplit]; exact hne
    · rw [hsplit]; exact hlen
    · rw [hsplit]; exact hok

theorem rt_bnil_anil (af bf : Chars) (haf : okComp af) (hbf : okComp bf) :
    reconstructChars (absOf [af]) (calculateDeltaChars (absOf [af]) (absOf [bf])) =
      .ok (absOf [bf]) := by
  have hda : dirChars (absOf [af]) = ['/'] := dirChars_abs_nil af haf
  have hdb : dirChars (absOf [bf]) = ['/'] := dirChars_abs_nil bf hbf
  have hbase : baseChars (absOf [bf]) = bf := baseChars_abs_ok [] bf hbf
  have htoken : calculateDeltaChars (absOf [af]) (absOf [bf]) = bf := by
    rw [calculateDeltaChars_eval _ _ (absOf_ne_nil [af]), hda, hdb, hbase, splitChars_root]
    rw [if_pos (by decide)]
    simp [joinChars]
  rw [htoken,
    reconstructChars_literal (absOf [af]) bf (absOf_ne_nil [af]) hbf.2.2.2.2, hda]
  have hj : joinChars2 ['/'] bf = absOf [bf] := by
    have h2 := joinChars2_root [bf] (by simp)
      (by intro d hd
          have hd2 : d = bf := by simpa using hd
          subst hd2
          exact ⟨hbf.1, hbf.2.1, hbf.2.2.1, hbf.2.2.2.1⟩)
    exact h2
  rw [hj]

theorem rt_bnil_acons (adc : List Chars) (af bf : Chars) (hadc : adc ≠ [])
    (hok : ∀ c ∈ adc ++ [af], okComp c) (hbf : okComp bf)
    (hlen : (adc ++ [af] : List Chars).length < 2 ^ 63) :
    reconstructChars (absOf (adc ++ [af]))
      (calculateDeltaChars (absOf (adc ++ [af])) (absOf [bf])) = .ok (absOf [bf]) := by
  obtain ⟨a0, adc', rfl⟩ := List.exists_cons_of_ne_nil hadc
  have hda : dirChars (absOf ((a0 :: adc') ++ [af])) = absOf (a0 :: adc') :=
    dirChars_abs_concat (a0 :: adc') af (by simp) hok
  have hdb : dirChars (absOf [bf]) = ['/'] := dirChars_abs_nil bf hbf
  have hsa : splitChars '/' (absOf (a0 :: adc')) = [] :: a0 :: adc' :=
    splitChars_abs (a0 :: adc') (by simp) (fun c hc => hok c (List.mem_append_left _ hc))
  have hbase : baseChars (absOf [bf]) = bf := baseChars_abs_ok [] bf hbf
  have hcpl : commonPrefixLen ([] :: a0 :: adc') [[], []] = 1 := by
    rw [commonPrefixLen_cons_eq,
      commonPrefixLen_cons_ne a0 [] adc' [] (hok a0 (by simp)).1]
  have hd1 : (([] : Chars) :: a0 :: adc').length - 1 = adc'.length + 1 := by simp
  have hrange : ((adc'.length + 1 : Nat) : Int) ≤ 2 ^ 63 - 1 := by
    have : (a0 :: adc' ++ [af] : List Chars).length = adc'.length + 2 := by simp
    rw [this] at hlen
    omega
  have htoken : calculateDeltaChars (absOf ((a0 :: adc') ++ [af])) (absOf [bf]) =
      '-' :: (natToDigits (adc'.length + 1) ++ ':' :: ('/' :: bf)) := by
    rw [calculateDeltaChars_eval _ _ (absOf_ne_nil _), hda, hdb, hsa, hbase,
      splitChars_root, hcpl, hd1]
    rw [if_neg (by omega)]
    simp [joinChars]
  rw [htoken, reconstructChars_delta _ _ _ (absOf_ne_nil _) hrange, hda, hsa]
  rw [if_neg (by simp only [List.length_cons]; omega)]
  have hkept : (([] : Chars) :: a0 :: adc').take ((([] : Chars) :: a0 :: adc').length -
      (adc'.length + 1)) = [[]] := by
    simp
  rw [hkept]
  rw [if_neg (by simp)]
  rw [if_pos (by simp)]
  have hnp : joinChars '/' [([] : Chars)] = [] := rfl
  rw [hnp, joinChars2_nil_clean ('/' :: bf) (by simp),
    cleanChars_slash_comp bf ⟨hbf.1, hbf.2.1, hbf.2.2.1, hbf.2.2.2.1⟩]
  simp [absOf, joinChars]

theorem rt_bcons (adc : List Chars) (af : Chars) (bdc : List Chars) (bf : Chars)
    (hoka : ∀ c ∈ adc ++ [af], okComp c) (hokb : ∀ c ∈ bdc ++ [bf], okComp c)
    (hbdc : bdc ≠ [])
    (hlen : (adc ++ [af] : List Chars).length < 2 ^ 63) :
    ∃ r, reconstructChars (absOf (adc ++ [af]))
        (calculateDeltaChars (absOf (adc ++ [af])) (absOf (bdc ++ [bf]))) = .ok r ∧
      (1 ≤ commonPrefixLen adc bdc → r = absOf (bdc ++ [bf])) := by
  obtain ⟨b0, bdc', rfl⟩ := List.exists_cons_of_ne_nil hbdc
  have hdb : dirChars (absOf ((b0 :: bdc') ++ [bf])) = absOf (b0 :: bdc') :=
    dirChars_abs_concat (b0 :: bdc') bf (by simp) hokb
  have hsb : splitChars '/' (absOf (b0 :: bdc')) = [] :: b0 :: bdc' :=
    splitChars_abs (b0 :: bdc') (by simp) (fun c hc => hokb c (List.mem_append_left _ hc))
  have hbase : baseChars (absOf ((b0 :: bdc') ++ [bf])) = bf :=
    baseChars_abs_ok (b0 :: bdc') bf (hokb bf (by simp))
  have hb0 : okComp b0 := hokb b0 (by simp)
  have hsufne : joinChars '/' ((b0 :: bdc').drop 0 ++ [bf]) ≠ [] := by
    refine join_first_ne_nil _ (by simp) ?_
    intro d hd
    exact hokb d (by simpa using hd)
  cases adc with
  | nil =>
    have hda : dirChars (absOf ([] ++ [af])) = ['/'] := by
      rw [List.nil_append]
      exact dirChars_abs_nil af (hoka af (by simp))
    have hcpl : commonPrefixLen [[], []] ([] :: b0 :: bdc') = 1 := by
      rw [commonPrefixLen_cons_eq, commonPrefixLen_cons_ne [] b0 [] bdc' (Ne.symm hb0.1)]
    have htoken : calculateDeltaChars (absOf ([] ++ [af])) (absOf ((b0 :: bdc') ++ [bf])) =
        '-' :: (natToDigits 1 ++ ':' :: joinChars '/' ((b0 :: bdc') ++ [bf])) := by
      rw [calculateDeltaChars_eval _ _ (absOf_ne_nil _), hda, hdb, hsb, hbase,
        splitChars_root, hcpl]
      rw [if_neg (by simp)]
      simp
    rw [htoken, reconstructChars_delta _ _ _ (absOf_ne_nil _) (by norm_num), hda,
      splitChars_root]
    rw [if_neg (by norm_num)]
    rw [if_neg (by simp)]
    rw [if_pos ?hsuf]
    case hsuf =>
      show joinChars '/' ((b0 :: bdc') ++ [bf]) ≠ []
      simpa using hsufne
    refine ⟨_, rfl, ?_⟩
    intro hcontra
    simp [commonPrefixLen] at hcontra
  | cons a0 adc' =>
    have hda : dirChars (absOf ((a0 :: adc') ++ [af])) = absOf (a0 :: adc') :=
      dirChars_abs_concat (a0 :: adc') af (by simp) hoka
    have hsa : splitChars '/' (absOf (a0 :: adc')) = [] :: a0 :: adc' :=
      splitChars_abs (a0 :: adc') (by simp) (fun c hc => hoka c (List.mem_append_left _ hc))
    have hcpl : commonPrefixLen ([] :: a0 :: adc') ([] :: b0 :: bdc') =
        commonPrefixLen (a0 :: adc') (b0 :: bdc') + 1 :=
      commonPrefixLen_cons_eq [] (a0 :: adc') (b0 :: bdc')
    have hjle : commonPrefixLen (a0 :: adc') (b0 :: bdc') ≤ (a0 :: adc').length :=
      commonPrefixLen_le_left (a0 :: adc') (b0 :: bdc')
    have hokab : ∀ d ∈ (a0 :: adc') ++ ((b0 :: bdc').drop
        (commonPrefixLen (a0 :: adc') (b0 :: bdc')) ++ [bf]),
        d ≠ [] ∧ '/' ∉ d ∧ d ≠ ['.'] ∧ d ≠ ['.', '.'] := by
      intro d hd
      rcases List.mem_append.mp hd with hd | hd
      · exact okComp_fields hoka d (List.mem_append_left _ hd)
      · rcases List.mem_append.mp hd with hd | hd
        · exact okComp_fields hokb d
            (List.mem_append_left _ (((b0 :: bdc').drop_sublist _).mem hd))
        · have hd2 : d = bf := by simpa using hd
          rw [hd2]
          exact okComp_fields hokb bf (by simp)
    by_cases hlev : (([] : Chars) :: a0 :: adc').length -
        commonPrefixLen ([] :: a0 :: adc') ([] :: b0 :: bdc') = 0
    · -- no ascent: the previous directory is a prefix of the current one
      have hjd : commonPrefixLen (a0 :: adc') (b0 :: bdc') = (a0 :: adc').length := by
        rw [hcpl] at hlev
        simp only [List.length_cons] at hlev hjle ⊢
        omega
      have hpref : (a0 :: adc') = (b0 :: bdc').take (a0 :: adc').length := by
        have h2 := commonPrefixLen_take (a0 :: adc') (b0 :: bdc')
        rw [hjd, List.take_length (a0 :: adc')] at h2
        exact h2
      have htoken : calculateDeltaChars (absOf ((a0 :: adc') ++ [af]))
          (absOf ((b0 :: bdc') ++ [bf])) =
          joinChars '/' ((b0 :: bdc').drop (commonPrefixLen ([] :: a0 :: adc')
            ([] :: b0 :: bdc') - 1) ++ [bf]) := by
        rw [calculateDeltaChars_eval _ _ (absOf_ne_nil _), hda, hdb, hsa, hsb, hbase]
        rw [if_pos hlev]
        rw [hcpl]
        simp
      have hdropok : ∀ d ∈ (b0 :: bdc').drop (commonPrefixLen ([] :: a0 :: adc')
          ([] :: b0 :: bdc') - 1) ++ [bf], okComp d := by
        intro d hd
        rcases List.mem_append.mp hd with hd | hd
        · exact hokb d (List.mem_append_left _ (((b0 :: bdc').drop_sublist _).mem hd))
        · have hd2 : d = bf := by simpa using hd
          rw [hd2]
          exact hokb bf (by simp)
      have hheadne : ¬ (joinChars '/' ((b0 :: bdc').drop (commonPrefixLen
          ([] :: a0 :: adc') ([] :: b0 :: bdc') - 1) ++ [bf])).head? = some '-' :=
        join_head_ne_dash _ (by simp) hdropok
      rw [htoken, reconstructChars_literal _ _ (absOf_ne_nil _) hheadne, hda]
      have hjoin2 : joinChars2 (absOf (a0 :: adc'))
          (joinChars '/' ((b0 :: bdc').drop (commonPrefixLen ([] :: a0 :: adc')
            ([] :: b0 :: bdc') - 1) ++ [bf])) = absOf ((b0 :: bdc') ++ [bf]) := by
        rw [hcpl]
        simp only [Nat.add_sub_cancel]
        rw [joinChars2_abs (a0 :: adc') _ (by simp) (by simp) (by
          intro d hd
          exact hokab d hd)]
        rw [← List.append_assoc]
        have hcomb : (a0 :: adc') ++
            (b0 :: bdc').drop (commonPrefixLen (a0 :: adc') (b0 :: bdc')) =
            b0 :: bdc' := by
          rw [hjd]
          nth_rewrite 1 [hpref]
          exact List.take_append_drop _ _
        rw [hcomb]
      rw [hjoin2]
      exact ⟨_, rfl, fun _ => rfl⟩
    · -- positive ascent
      have hL1 : 1 ≤ (([] : Chars) :: a0 :: adc').length -
          commonPrefixLen ([] :: a0 :: adc') ([] :: b0 :: bdc') := by omega
      have hrange : (((([] : Chars) :: a0 :: adc').length -
          commonPrefixLen ([] :: a0 :: adc') ([] :: b0 :: bdc') : Nat) : Int) ≤
          2 ^ 63 - 1 := by
        have h2 : ((a0 :: adc') ++ [af] : List Chars).length = adc'.length + 2 := by simp
        rw [h2] at hlen
        simp only [List.length_cons]
        omega
      have htoken : calculateDeltaChars (absOf ((a0 :: adc') ++ [af]))
          (absOf ((b0 :: bdc') ++ [bf])) =
          '-' :: (natToDigits ((([] : Chars) :: a0 :: adc').length -
            commonPrefixLen ([] :: a0 :: adc') ([] :: b0 :: bdc')) ++
              ':' :: joinChars '/' ((b0 :: bdc').drop (commonPrefixLen
                ([] :: a0 :: adc') ([] :: b0 :: bdc') - 1) ++ [bf])) := by
        rw [calculateDeltaChars_eval _ _ (absOf_ne_nil _), hda, hdb, hsa, hsb, hbase]
        rw [if_neg hlev]
        rw [hcpl]
        simp
      rw [htoken, reconstructChars_delta _ _ _ (absOf_ne_nil _) hrange, hda, hsa]
      rw [if_neg (by
        simp only [List.length_cons, hcpl] at *
        omega)]
      have harith : (([] : Chars) :: a0 :: adc').length -
          ((([] : Chars) :: a0 :: adc').length -
            commonPrefixLen ([] :: a0 :: adc') ([] :: b0 :: bdc')) =
          commonPrefixLen (a0 :: adc') (b0 :: bdc') + 1 := by
        simp only [List.length_cons, hcpl] at *
        omega
      rw [harith, List.take_succ_cons]
      have hsufne2 : joinChars '/' ((b0 :: bdc').drop (commonPrefixLen
          ([] :: a0 :: adc') ([] :: b0 :: bdc') - 1) ++ [bf]) ≠ [] := by
        refine join_first_ne_nil _ (by simp) ?_
        intro d hd
        rcases List.mem_append.mp hd with hd | hd
        · exact hokb d (List.mem_append_left _ (((b0 :: bdc').drop_sublist _).mem hd))
        · have hd2 : d = bf := by simpa using hd
          rw [hd2]
          exact hokb bf (by simp)
      rcases Nat.eq_zero_or_pos (commonPrefixLen (a0 :: adc') (b0 :: bdc')) with hj0 | hj1
      · -- nothing shared beyond the leading empty piece: decode still succeeds
        rw [hj0]
        simp only [List.take_zero]
        rw [if_neg (by simp)]
        rw [if_pos ?hsufa]
        case hsufa =>
          simpa [hcpl, hj0] using hsufne2
        exact ⟨_, rfl, by intro h2; omega⟩
      · -- a real shared component: decode reproduces the target exactly
        obtain ⟨j', hj'⟩ : ∃ j', commonPrefixLen (a0 :: adc') (b0 :: bdc') = j' + 1 :=
          ⟨_, (Nat.succ_pred_eq_of_pos hj1).symm⟩
        rw [hj', List.take_succ_cons]
        rw [if_neg (by simp)]
        rw [if_pos ?hsufb]
        case hsufb =>
          simpa [hcpl, hj'] using hsufne2
        have hnp : joinChars '/' (([] : Chars) :: a0 :: List.take j' adc') =
            absOf (a0 :: List.take j' adc') := by
          rw [joinChars_cons]
          simp [absOf]
        rw [hnp]
        have htake_ab : (a0 :: List.take j' adc') =
            (b0 :: bdc').take (commonPrefixLen (a0 :: adc') (b0 :: bdc')) := by
          have h2 := commonPrefixLen_take (a0 :: adc') (b0 :: bdc')
          rw [hj'] at h2 ⊢
          rw [List.take_succ_cons] at h2
          exact h2
        have hjoin2 : joinChars2 (absOf (a0 :: List.take j' adc'))
            (joinChars '/' ((b0 :: bdc').drop (commonPrefixLen ([] :: a0 :: adc')
              ([] :: b0 :: bdc') - 1) ++ [bf])) = absOf ((b0 :: bdc') ++ [bf]) := by
          rw [hcpl]
          simp only [Nat.add_sub_cancel]
          rw [joinChars2_abs (a0 :: List.take j' adc') _ (by simp) (by simp) (by
            intro d hd
            rcases List.mem_append.mp hd with hd | hd
            · refine okComp_fields hoka d (List.mem_append_left _ ?_)
              rcases List.mem_cons.mp hd with hd | hd
              · simp [hd]
              · exact List.mem_cons_of_mem a0 ((adc'.take_sublist j').mem hd)
            · rcases List.mem_append.mp hd with hd | hd
              · exact okComp_fields hokb d
                  (List.mem_append_left _ (((b0 :: bdc').drop_sublist _).mem hd))
              · have hd2 : d = bf := by simpa using hd
                rw [hd2]
                exact okComp_fields hokb bf (by simp))]
          rw [htake_ab]
          rw [← List.append_assoc, List.take_append_drop]
        rw [hjoin2]
        exact ⟨_, rfl, fun _ => rfl⟩

theorem encode_decode_chars (as bs : List Chars) (ha : wfComps as) (hb : wfComps bs) :
    ∃ r, reconstructChars (absOf as) (calculateDeltaChars (absOf as) (absOf bs)) = .ok r ∧
      ((2 ≤ commonPrefixLen (splitChars '/' (dirChars (absOf as)))
            (splitChars '/' (dirChars (absOf bs))) ∨ dirChars (absOf bs) = ['/']) →
        r = absOf bs) := by
  obtain ⟨hane, halen, haok⟩ := ha
  obtain ⟨hbne, hblen, hbok⟩ := hb
  rcases List.eq_nil_or_concat as with rfl | ⟨adc, af, has⟩
  · exact absurd rfl hane
  rw [List.concat_eq_append] at has
  subst has
  rcases List.eq_nil_or_concat bs with rfl | ⟨bdc, bf, hbs⟩
  · exact absurd rfl hbne
  rw [List.concat_eq_append] at hbs
  subst hbs
  rcases List.eq_nil_or_concat bdc with rfl | ⟨bdc0, b1, hbdc2⟩
  · -- the target path sits directly under the root
    rcases List.eq_nil_or_concat adc with rfl | ⟨adc0, a1, hadc2⟩
    · refine ⟨absOf ([] ++ [bf]), ?_, fun _ => rfl⟩
      have h2 := rt_bnil_anil af bf (haok af (by simp)) (hbok bf (by simp))
      simpa using h2
    · rw [List.concat_eq_append] at hadc2
      subst hadc2
      refine ⟨absOf ([] ++ [bf]), ?_, fun _ => rfl⟩
      have h2 := rt_bnil_acons (adc0 ++ [a1]) af bf (by simp) haok
        (hbok bf (by simp)) halen
      simpa using h2
  · rw [List.concat_eq_append] at hbdc2
    subst hbdc2
    -- the target path has at least one real directory component
    obtain ⟨r, hr, himp⟩ := rt_bcons adc af (bdc0 ++ [b1]) bf haok hbok (by simp) halen
    refine ⟨r, hr, ?_⟩
    intro hg
    have hdb : dirChars (absOf ((bdc0 ++ [b1]) ++ [bf])) = absOf (bdc0 ++ [b1]) :=
      dirChars_abs_concat (bdc0 ++ [b1]) bf (by simp) hbok
    have hsb : splitChars '/' (absOf (bdc0 ++ [b1])) = [] :: (bdc0 ++ [b1]) :=
      splitChars_abs (bdc0 ++ [b1]) (by simp)
        (fun c hc => hbok c (List.mem_append_left _ hc))
    have hnotroot : absOf (bdc0 ++ [b1]) ≠ ['/'] :=
      absOf_ne_root (bdc0 ++ [b1]) (by simp)
        (fun c hc => hbok c (List.mem_append_left _ hc))
    rcases hg with hg | hg
    · rcases List.eq_nil_or_concat adc with rfl | ⟨adc0, a1, hadc2⟩
      · -- previous path directly under the root: common prefix is the
        -- single leading empty piece, so the bound 2 cannot be met
        have hda : dirChars (absOf ([] ++ [af])) = ['/'] := by
          rw [List.nil_append]
          exact dirChars_abs_nil af (haok af (by simp))
        rw [hda, hdb, hsb, splitChars_root] at hg
        obtain ⟨hb0, hbdc'⟩ : ∃ b0 bdc', bdc0 ++ [b1] = b0 :: bdc' := by
          cases h : bdc0 ++ [b1] with
          | nil => simp at h
          | cons x xs => exact ⟨x, xs, rfl⟩
        obtain ⟨bdc', hb⟩ := hbdc'
        rw [hb] at hg
        rw [commonPrefixLen_cons_eq, commonPrefixLen_cons_ne [] hb0 [] bdc'
          (Ne.symm (hbok hb0 (by rw [hb] at *; exact List.mem_append_left _ (by simp))).1)]
          at hg
        omega
      · rw [List.concat_eq_append] at hadc2
        subst hadc2
        have hda : dirChars (absOf ((adc0 ++ [a1]) ++ [af])) = absOf (adc0 ++ [a1]) :=
          dirChars_abs_concat (adc0 ++ [a1]) af (by simp) haok
        have hsa : splitChars '/' (absOf (adc0 ++ [a1])) = [] :: (adc0 ++ [a1]) :=
          splitChars_abs (adc0 ++ [a1]) (by simp)
            (fun c hc => haok c (List.mem_append_left _ hc))
        rw [hda, hdb, hsa, hsb, commonPrefixLen_cons_eq] at hg
        exact himp (by omega)
    · rw [hdb] at hg
      exact absurd hg hnotroot

theorem mk_toList (s : String) : String.mk s.toList = s := rfl

theorem reconstructPath_calculateDeltaPath (a b : String)
    (ha : validPath a) (hb : validPath b) :
    ∃ r, reconstructPath a (calculateDeltaPath a b) = .ok r ∧ (goodPair a b → r = b) := by
  obtain ⟨as, hA, hwa⟩ := (validPathChars_iff a.toList).mp ha
  obtain ⟨bs, hB, hwb⟩ := (validPathChars_iff b.toList).mp hb
  obtain ⟨r, hr, himp⟩ := encode_decode_chars as bs hwa hwb
  refine ⟨String.mk r, ?_, ?_⟩
  · show (reconstructChars a.toList (calculateDeltaChars a.toList b.toList)).map
      String.mk = .ok (String.mk r)
    rw [hA, hB, hr]
    rfl
  · intro hg
    rw [goodPair, hA, hB] at hg
    rw [himp hg, ← hB, mk_toList]

theorem pair_roundtrip (a b : String) (ha : validPath a) (hb : validPath b)
    (hg : goodPair a b) :
    reconstructPath a (calculateDeltaPath a b) = .ok b := by
  obtain ⟨r, hr, himp⟩ := reconstructPath_calculateDeltaPath a b ha hb
  rw [hr, himp hg]

theorem pair_decodes_ok (a b : String) (ha : validPath a) (hb : validPath b) :
    ∃ r, reconstructPath a (calculateDeltaPath a b) = .ok r := by
  obtain ⟨r, hr, _⟩ := reconstructPath_calculateDeltaPath a b ha hb
  exact ⟨r, hr⟩

theorem calculateDeltaPath_first (t : String) : calculateDeltaPath "" t = t := by
  show String.mk (calculateDeltaChars [] t.toList) = t
  rw [show calculateDeltaChars [] t.toList = t.toList from by simp [calculateDeltaChars],
    mk_toList]

theorem reconstructPath_first (t : String) : reconstructPath "" t = .ok t := by
  show (reconstructChars [] t.toList).map String.mk = _
  rw [reconstructChars_nil]
  show Except.ok (String.mk t.toList) = _
  rw [mk_toList]

theorem adjOKB_cons_head {a b : String} {rest : List String}
    (h : adjOKB (a :: b :: rest) = true) : goodPair a b := by
  simp only [adjOKB, Bool.and_eq_true, decide_eq_true_eq] at h
  exact h.1

theorem adjOKB_cons_tail {a : String} {rest : List String}
    (h : adjOKB (a :: rest) = true) : adjOKB rest = true := by
  cases rest with
  | nil => rfl
  | cons b rest' =>
    simp only [adjOKB, Bool.and_eq_true] at h
    exact h.2

theorem decode_chain (ps : List String) : ∀ prev : String, validPath prev →
    (∀ p ∈ ps, validPath p) → adjOKB (prev :: ps) = true →
    inflateSegLines prev (deltaLines prev ps) = .ok (ps, ps.getLastD prev) := by
  induction ps with
  | nil => intro prev _ _ _; rfl
  | cons p rest ih =>
    intro prev hprev hall hadj
    have hp : validPath p := hall p (by simp)
    have hg : goodPair prev p := adjOKB_cons_head hadj
    simp only [deltaLines, inflateSegLines, pair_roundtrip prev p hprev hp hg,
      ih p hp (fun q hq => hall q (by simp [hq])) (adjOKB_cons_tail hadj)]
    rw [List.getLastD_cons]

theorem decode_chain_start (ps : List String) (hall : ∀ p ∈ ps, validPath p)
    (hadj : adjOKB ps = true) :
    inflateSegLines "" (deltaLines "" ps) = .ok (ps, ps.getLastD "") := by
  cases ps with
  | nil => rfl
  | cons p rest =>
    simp only [deltaLines, inflateSegLines, calculateDeltaPath_first p,
      reconstructPath_first p,
      decode_chain rest p (hall p (by simp)) (fun q hq => hall q (by simp [hq])) hadj]
    rw [List.getLastD_cons]

theorem segBytes_append (xs ys : List String) :
    segBytes (xs ++ ys) = segBytes xs + segBytes ys := by
  simp [segBytes]

theorem rotate_zero (s : RWState) (h0 : s.maxFiles = 0) :
    rotate s = .ok { s with
      sealed := s.sealed ++ (match s.current with | some c => [c] | none => [])
      current := some []
      currentSize := 0
      fileNumber := s.fileNumber + 1 } := by
  rw [rotate, if_neg (by simp [h0])]

theorem segBytes_single (l : String) : segBytes [l] = lineBytes l := by
  simp [segBytes]

theorem WritePath_zero_big (s : RWState) (p : String) (h0 : s.maxFiles = 0)
    (cur : List String) (hcur : s.current = some cur)
    (hbig : s.currentSize + lineBytes (calculateDeltaPath s.lastWrittenPath p) >
      maxFileSize) :
    WritePath s p = .ok
      { sealed := s.sealed ++ [cur]
        current := some [calculateDeltaPath s.lastWrittenPath p]
        currentSize := lineBytes (calculateDeltaPath s.lastWrittenPath p)
        fileNumber := s.fileNumber + 1
        maxFiles := s.maxFiles
        lastWrittenPath := p } := by
  simp only [WritePath, if_pos hbig, rotate_zero s h0, hcur]
  simp

theorem WritePath_small (s : RWState) (p : String)
    (cur : List String) (hcur : s.current = some cur)
    (hsmall : ¬ (s.currentSize + lineBytes (calculateDeltaPath s.lastWrittenPath p) >
      maxFileSize)) :
    WritePath s p = .ok
      { sealed := s.sealed
        current := some (cur ++ [calculateDeltaPath s.lastWrittenPath p])
        currentSize := s.currentSize + lineBytes (calculateDeltaPath s.lastWrittenPath p)
        fileNumber := s.fileNumber
        maxFiles := s.maxFiles
        lastWrittenPath := p } := by
  simp only [WritePath, if_neg hsmall, hcur]
  simp

theorem writeAll_zero_trace (ps : List String) : ∀ (s : RWState) (cur : List String),
    s.maxFiles = 0 → s.current = some cur →
    ∃ (s' : RWState) (cur' : List String), writeAll s ps = .ok s' ∧
      s'.maxFiles = 0 ∧ s'.current = some cur' ∧
      allLines s' = allLines s ++ deltaLines s.lastWrittenPath ps ∧
      s'.lastWrittenPath = ps.getLastD s.lastWrittenPath ∧
      (writerInv s → writerInv s') := by
  induction ps with
  | nil =>
    intro s cur h0 hcur
    exact ⟨s, cur, rfl, h0, hcur, by simp [deltaLines], rfl, fun h => h⟩
  | cons p rest ih =>
    intro s cur h0 hcur
    by_cases hbig : s.currentSize + lineBytes (calculateDeltaPath s.lastWrittenPath p) >
        maxFileSize
    · obtain ⟨s', cur', hw, h0', hcur', hlines, hlast, hinv⟩ :=
        ih { sealed := s.sealed ++ [cur]
             current := some [calculateDeltaPath s.lastWrittenPath p]
             currentSize := lineBytes (calculateDeltaPath s.lastWrittenPath p)
             fileNumber := s.fileNumber + 1
             maxFiles := s.maxFiles
             lastWrittenPath := p } [calculateDeltaPath s.lastWrittenPath p] h0 rfl
      refine ⟨s', cur', ?_, h0', hcur', ?_, ?_, ?_⟩
      · simp only [writeAll, WritePath_zero_big s p h0 cur hcur hbig]
        exact hw
      · rw [hlines]
        simp only [allLines, hcur, deltaLines]
        simp [List.flatten_append, List.append_assoc]
      · rw [hlast, List.getLastD_cons]
      · intro hs
        refine hinv ?_
        obtain ⟨hsync, hbound, hsealed⟩ := hs
        rw [hcur] at hsync hbound
        refine ⟨by simp [segBytes_single], Or.inr ⟨_, rfl⟩, ?_⟩
        intro seg hseg
        rcases List.mem_append.mp hseg with hseg | hseg
        · exact hsealed seg hseg
        · have hseg2 : seg = cur := by simpa using hseg
          subst hseg2
          rcases hbound with hbound | ⟨l, hl⟩
          · left
            simp only [Option.getD_some] at hsync
            rw [← hsync]
            exact hbound
          · right
            exact ⟨l, by simpa using hl⟩
    · obtain ⟨s', cur', hw, h0', hcur', hlines, hlast, hinv⟩ :=
        ih { sealed := s.sealed
             current := some (cur ++ [calculateDeltaPath s.lastWrittenPath p])
             currentSize := s.currentSize +
               lineBytes (calculateDeltaPath s.lastWrittenPath p)
             fileNumber := s.fileNumber
             maxFiles := s.maxFiles
             lastWrittenPath := p } (cur ++ [calculateDeltaPath s.lastWrittenPath p])
          h0 rfl
      refine ⟨s', cur', ?_, h0', hcur', ?_, ?_, ?_⟩
      · simp only [writeAll, WritePath_small s p cur hcur hbig]
        exact hw
      · rw [hlines]
        simp only [allLines, hcur, deltaLines]
        simp [List.append_assoc]
      · rw [hlast, List.getLastD_cons]
      · intro hs
        refine hinv ?_
        obtain ⟨hsync, hbound, hsealed⟩ := hs
        rw [hcur] at hsync
        simp only [Option.getD_some] at hsync
        refine ⟨?_, ?_, hsealed⟩
        · simp only [Option.getD_some, segBytes_append, segBytes_single]
          rw [hsync]
        · left
          show s.currentSize + lineBytes (calculateDeltaPath s.lastWrittenPath p) ≤
            maxFileSize
          omega

theorem closeWriter_sealed (s : RWState) (cur : List String) (hcur : s.current = some cur) :
    (closeWriter s).sealed = s.sealed ++ [cur] := by
  simp [closeWriter, hcur]

theorem closeWriter_flatten (s : RWState) (cur : List String) (hcur : s.current = some cur) :
    (closeWriter s).sealed.flatten = allLines s := by
  rw [closeWriter_sealed s cur hcur]
  simp [allLines, hcur, List.flatten_append]

theorem closeWriter_segs_bound (s : RWState) (cur : List String)
    (hcur : s.current = some cur) (hinv : writerInv s) :
    ∀ seg ∈ (closeWriter s).sealed, segBytes seg ≤ maxFileSize ∨ ∃ l, seg = [l] := by
  rw [closeWriter_sealed s cur hcur]
  intro seg hseg
  obtain ⟨hsync, hbound, hsealed⟩ := hinv
  rcases List.mem_append.mp hseg with hseg | hseg
  · exact hsealed seg hseg
  · have hseg2 : seg = cur := by simpa using hseg
    subst hseg2
    rw [hcur] at hsync hbound
    simp only [Option.getD_some] at hsync
    rcases hbound with hbound | ⟨l, hl⟩
    · left
      rw [← hsync]
      exact hbound
    · right
      exact ⟨l, by simpa using hl⟩

theorem inflateSegLines_append : ∀ (xs ys : List String) (lp : String),
    inflateSegLines lp (xs ++ ys) =
      (match inflateSegLines lp xs with
       | .error e => .error e
       | .ok (ps, fin) =>
         match inflateSegLines fin ys with
         | .error e => .error e
         | .ok (qs, fin2) => .ok (ps ++ qs, fin2)) := by
  intro xs
  induction xs with
  | nil =>
    intro ys lp
    simp only [List.nil_append, inflateSegLines]
    cases h : inflateSegLines lp ys with
    | error e => rfl
    | ok pr =>
      obtain ⟨qs, fin⟩ := pr
      rfl
  | cons d xs ih =>
    intro ys lp
    simp only [List.cons_append, inflateSegLines]
    cases hr : reconstructPath lp d with
    | error e => rfl
    | ok p =>
      dsimp only
      rw [show xs.append ys = xs ++ ys from rfl, ih ys p]
      cases inflateSegLines p xs with
      | error e => rfl
      | ok pr =>
        obtain ⟨qs, fin⟩ := pr
        dsimp only
        cases inflateSegLines fin ys with
        | error e => rfl
        | ok qr =>
          obtain ⟨rs, fin2⟩ := qr
          simp

theorem inflateSegsFrom_flatten : ∀ (segs : List (List String)) (lp : String),
    inflateSegsFrom lp segs =
      (match inflateSegLines lp segs.flatten with
       | .error e => .error e
       | .ok (ps, _) => .ok ps) := by
  intro segs
  induction segs with
  | nil => intro lp; rfl
  | cons seg rest ih =>
    intro lp
    simp only [inflateSegsFrom, List.flatten_cons, inflateSegLines_append seg rest.flatten lp]
    cases h : inflateSegLines lp seg with
    | error e => rfl
    | ok pr =>
      obtain ⟨ps, fin⟩ := pr
      dsimp only
      rw [ih fin]
      cases inflateSegLines fin rest.flatten with
      | error e => rfl
      | ok qr =>
        obtain ⟨qs, fin2⟩ := qr
        rfl

theorem run_roundtrip (ps : List String) (hall : ∀ p ∈ ps, validPath p)
    (hadj : adjOKB ps = true) :
    ∃ s', writeAll freshWriter ps = .ok s' ∧
      inflateDirectory (closeWriter s').sealed = .ok ps := by
  obtain ⟨s', cur', hw, h0', hcur', hlines, hlast, hinv⟩ :=
    writeAll_zero_trace ps freshWriter [] rfl rfl
  refine ⟨s', hw, ?_⟩
  have hflat : (closeWriter s').sealed.flatten = deltaLines "" ps := by
    rw [closeWriter_flatten s' cur' hcur', hlines]
    show allLines freshWriter ++ deltaLines "" ps = deltaLines "" ps
    simp [allLines, freshWriter]
  rw [inflateDirectory, inflateSegsFrom_flatten, hflat, decode_chain_start ps hall hadj]

theorem seg_bound_last (seg : List String)
    (h : segBytes seg ≤ maxFileSize ∨ ∃ l, seg = [l]) (hne : seg ≠ []) :
    segBytes seg ≤ maxFileSize + lineBytes (seg.getLast hne) := by
  rcases h with h | ⟨l, rfl⟩
  · exact le_trans h (Nat.le_add_right _ _)
  · simp only [segBytes_single, List.getLast_singleton]
    omega

theorem writerInv_fresh : writerInv freshWriter :=
  ⟨rfl, Or.inl (Nat.zero_le _), by simp [freshWriter]⟩

theorem walkDirectory_eq_aux_empty (es : List (String × Bool)) (s : RWState) :
    walkDirectory es s "" = walkAux "" true "" s es := by
  simp [walkDirectory]

theorem walkDirectory_eq_aux_ne (es : List (String × Bool)) (s : RWState) (rp : String)
    (hrp : rp ≠ "") :
    walkDirectory es s rp = walkAux rp false "" s es := by
  simp [walkDirectory, hrp]

theorem walkAux_resume_irrel (r1 r2 : String) : ∀ (es : List (String × Bool))
    (lastDir : String) (s : RWState),
    walkAux r1 true lastDir s es = walkAux r2 true lastDir s es := by
  intro es
  induction es with
  | nil => intro _ _; rfl
  | cons e rest ih =>
    intro lastDir s
    obtain ⟨path, isDir⟩ := e
    cases isDir with
    | true => exact ih lastDir s
    | false =>
      simp only [walkAux]
      by_cases hdir : goDir path ≠ lastDir
      · rw [if_pos hdir, if_pos hdir]
        cases WritePath s path with
        | error e => rfl
        | ok s' => exact ih _ _
      · rw [if_neg hdir, if_neg hdir]
        exact ih lastDir s

theorem walkAux_skip_prefix (rp : String) (d : Bool) (suf : List (String × Bool)) :
    ∀ (pre : List (String × Bool)) (lastDir : String) (s : RWState),
    (∀ e ∈ pre, e.1 ≠ rp) →
    walkAux rp false lastDir s (pre ++ (rp, d) :: suf) =
      walkAux rp true lastDir s suf := by
  intro pre
  induction pre with
  | nil =>
    intro lastDir s _
    simp only [List.nil_append, walkAux]
    simp
  | cons e pre' ih =>
    intro lastDir s hpre
    obtain ⟨path, isDir⟩ := e
    have hne : path ≠ rp := hpre (path, isDir) (by simp)
    simp only [List.cons_append, walkAux]
    rw [if_neg hne]
    exact ih lastDir s (fun x hx => hpre x (by simp [hx]))

theorem walkAux_skip_all (rp : String) : ∀ (es : List (String × Bool))
    (lastDir : String) (s : RWState),
    (∀ e ∈ es, e.1 ≠ rp) → walkAux rp false lastDir s es = .ok s := by
  intro es
  induction es with
  | nil => intro _ _ _; rfl
  | cons e rest ih =>
    intro lastDir s hes
    obtain ⟨path, isDir⟩ := e
    have hne : path ≠ rp := hes (path, isDir) (by simp)
    simp only [walkAux]
    rw [if_neg hne]
    exact ih lastDir s (fun x hx => hes x (by simp [hx]))

theorem walkDirectory_resume_eq (pre : List (String × Bool)) (rp : String) (d : Bool)
    (suf : List (String × Bool)) (s : RWState) (hrp : rp ≠ "")
    (hpre : ∀ e ∈ pre, e.1 ≠ rp) :
    walkDirectory (pre ++ (rp, d) :: suf) s rp = walkDirectory suf s "" := by
  rw [walkDirectory_eq_aux_ne _ s rp hrp, walkDirectory_eq_aux_empty,
    walkAux_skip_prefix rp d suf pre "" s hpre]
  exact walkAux_resume_irrel rp "" suf "" s

theorem walkDirectory_missing_checkpoint (es : List (String × Bool)) (s : RWState)
    (rp : String) (hrp : rp ≠ "") (hmiss : ∀ e ∈ es, e.1 ≠ rp) :
    walkDirectory es s rp = .ok s := by
  rw [walkDirectory_eq_aux_ne es s rp hrp]
  exact walkAux_skip_all rp es "" s hmiss

theorem WritePath_budget_exhausted (s : RWState) (p : String)
    (hmax : s.maxFiles > 0) (hnum : s.fileNumber > s.maxFiles)
    (hbig : s.currentSize + lineBytes (calculateDeltaPath s.lastWrittenPath p) >
      maxFileSize) :
    WritePath s p = .error .maxFilesReached := by
  simp only [WritePath, if_pos hbig, rotate, if_pos (And.intro hmax hnum)]

theorem walk_budget_error (s : RWState) (c : String) (rest : List (String × Bool))
    (hdir : goDir c ≠ "")
    (herr : WritePath s c = .error .maxFilesReached) :
    walkDirectory ((c, false) :: rest) s "" = .error (.maxFiles c) := by
  rw [walkDirectory_eq_aux_empty]
  simp only [walkAux]
  rw [if_pos hdir, herr]


theorem reconstructChars_error_iff (prev t : Chars) (hprev : prev ≠ []) :
    ((reconstructChars prev t = .error .invalidFormat ∨
      reconstructChars prev t = .error .invalidLevels) ↔ malformedCondB t = true) ∧
    (reconstructChars prev t = .error .depthUnderflow ↔
      underflowCondB prev t = true) := by
  by_cases hhead : t.head? = some '-'
  · by_cases hcont : ':' ∈ t
    · cases hat : atoiChars (List.takeWhile (fun x => !decide (x = ':')) t.tail) with
      | none =>
        have hres : reconstructChars prev t = .error .invalidLevels := by
          simp [reconstructChars, hprev, hhead, hcont, hat]
        have hmal : malformedCondB t = true := by
          simp [malformedCondB, ascendFormB, levelsField, hhead, hcont, hat]
        have hund : underflowCondB prev t = false := by
          simp [underflowCondB, ascendFormB, levelsField, hhead, hcont, hat]
        rw [hres, hmal, hund]
        constructor
        · simp
        · simp
      | some n =>
        have hmal : malformedCondB t = false := by
          simp [malformedCondB, ascendFormB, levelsField, hhead, hcont, hat]
        by_cases hlt : (((splitChars '/' (dirChars prev)).length : Int) < n)
        · have hres : reconstructChars prev t = .error .depthUnderflow := by
            simp [reconstructChars, hprev, hhead, hcont, hat, hlt]
          have hund : underflowCondB prev t = true := by
            simp [underflowCondB, ascendFormB, levelsField, hhead, hcont, hat, hlt]
          rw [hres, hmal, hund]
          constructor
          · simp
          · simp
        · have hund : underflowCondB prev t = false := by
            simp [underflowCondB, ascendFormB, levelsField, hhead, hcont, hat, hlt]
          by_cases hneg : n < 0
          · have hres : reconstructChars prev t = .error .sliceBound := by
              simp [reconstructChars, hprev, hhead, hcont, hat, hlt, hneg]
            rw [hres, hmal, hund]
            constructor
            · simp
            · simp
          · by_cases hkept : ((splitChars '/' (dirChars prev)).length - n.toNat = 0 ∨
                splitChars '/' (dirChars prev) = [])
            · have hres : reconstructChars prev t =
                  .ok (List.dropWhile (fun x => !decide (x = ':')) t.tail).tail := by
                simp [reconstructChars, hprev, hhead, hcont, hat, hlt, hneg, hkept]
              rw [hres, hmal, hund]
              constructor
              · simp
              · simp
            · by_cases hsuf : (List.dropWhile (fun x => !decide (x = ':')) t.tail).tail = []
              · have hres : reconstructChars prev t =
                    .ok (joinChars '/' ((splitChars '/' (dirChars prev)).take
                      ((splitChars '/' (dirChars prev)).length - n.toNat))) := by
                  simp [reconstructChars, hprev, hhead, hcont, hat, hlt, hneg, hkept, hsuf]
                rw [hres, hmal, hund]
                constructor
                · simp
                · simp
              · have hres : reconstructChars prev t =
                    .ok (joinChars2 (joinChars '/' ((splitChars '/' (dirChars prev)).take
                      ((splitChars '/' (dirChars prev)).length - n.toNat)))
                        ((List.dropWhile (fun x => !decide (x = ':')) t.tail).tail)) := by
                  simp [reconstructChars, hprev, hhead, hcont, hat, hlt, hneg, hkept, hsuf]
                rw [hres, hmal, hund]
                constructor
                · simp
                · simp
    · have hres : reconstructChars prev t = .error .invalidFormat := by
        simp [reconstructChars, hprev, hhead, hcont]
      have hmal : malformedCondB t = true := by
        simp [malformedCondB, ascendFormB, hhead, hcont]
      have hund : underflowCondB prev t = false := by
        simp [underflowCondB, ascendFormB, hhead, hcont]
      rw [hres, hmal, hund]
      constructor
      · simp
      · simp
  · have hres : reconstructChars prev t = .ok (joinChars2 (dirChars prev) t) := by
      simp [reconstructChars, hprev, hhead]
    have hmal : malformedCondB t = false := by
      simp [malformedCondB, ascendFormB, hhead]
    have hund : underflowCondB prev t = false := by
      simp [underflowCondB, ascendFormB, hhead]
    rw [hres, hmal, hund]
    constructor
    · simp
    · simp

theorem toList_ne_nil (s : String) (h : s ≠ "") : s.toList ≠ [] := by
  intro hl
  apply h
  have h2 := congrArg String.mk hl
  rw [mk_toList] at h2
  exact h2

theorem except_map_eq_error (x : Except DecodeErr Chars) (e : DecodeErr) :
    x.map String.mk = .error e ↔ x = .error e := by
  cases x <;> simp [Except.map]

/-- Claim C1, corrected. Writing a finite ordered sequence of valid
absolute paths through the writer and inflating the sealed segments in
order, decoder state carried across boundaries, reproduces the original
sequence — provided each adjacent pair keeps a shared directory prefix
or descends from the root (`adjOKB`). Without that proviso the
round-trip can drop the leading separator (see the counterexample). -/
theorem C1_sequence_roundtrip (ps : List String) (hall : ∀ p ∈ ps, validPath p)
    (hadj : adjOKB ps = true) :
    ∃ s', writeAll freshWriter ps = .ok s' ∧
      inflateDirectory (closeWriter s').sealed = .ok ps :=
  run_roundtrip ps hall hadj

theorem C1_sequence_roundtrip_witness :
    (∀ p ∈ ["/a/b/f1", "/a/b/f2", "/a/c/f1"], validPath p) ∧
    adjOKB ["/a/b/f1", "/a/b/f2", "/a/c/f1"] = true ∧
    ∃ s', writeAll freshWriter ["/a/b/f1", "/a/b/f2", "/a/c/f1"] = .ok s' ∧
      inflateDirectory (closeWriter s').sealed =
        .ok ["/a/b/f1", "/a/b/f2", "/a/c/f1"] :=
  ⟨by decide, by decide,
    C1_sequence_roundtrip ["/a/b/f1", "/a/b/f2", "/a/c/f1"] (by decide) (by decide)⟩

/-- Counterexample to claim C1 as stated: the distinct valid paths
`/a/f1` and `/d/f2` survive writing, but inflation returns the relative
`d/f2` for the second path — ascending to the root loses the leading
separator, so the round-trip is not the identity on this sequence. -/
theorem C1_roundtrip_counterexample :
    (∀ p ∈ ["/a/f1", "/d/f2"], validPath p) ∧
    writeAll freshWriter ["/a/f1", "/d/f2"] =
      .ok { sealed := []
            current := some ["/a/f1", "-1:d/f2"]
            currentSize := 14
            fileNumber := 2
            maxFiles := 0
            lastWrittenPath := "/d/f2" } ∧
    inflateDirectory (closeWriter
      { sealed := []
        current := some ["/a/f1", "-1:d/f2"]
        currentSize := 14
        fileNumber := 2
        maxFiles := 0
        lastWrittenPath := "/d/f2" }).sealed = .ok ["/a/f1", "d/f2"] ∧
    (["/a/f1", "d/f2"] : List String) ≠ ["/a/f1", "/d/f2"] := by
  decide

/-- Claim C2, actual behavior. When a `WritePath` call must rotate but
the configured segment budget is already spent, the walk fails with the
budget error — but the path the error carries (and which the caller
persists as the checkpoint) is the path of the failing call, not the
last path successfully written before it, contradicting the claim. -/
theorem C2_budget_error_carries_failing_path (s : RWState) (c : String)
    (rest : List (String × Bool))
    (hmax : s.maxFiles > 0) (hnum : s.fileNumber > s.maxFiles)
    (hbig : s.currentSize + lineBytes (calculateDeltaPath s.lastWrittenPath c) >
      maxFileSize)
    (hdir : goDir c ≠ "") :
    walkDirectory ((c, false) :: rest) s "" = .error (.maxFiles c) ∧
    (c ≠ s.lastWrittenPath →
      walkDirectory ((c, false) :: rest) s "" ≠ .error (.maxFiles s.lastWrittenPath)) := by
  have herr := WritePath_budget_exhausted s c hmax hnum hbig
  have hwalk := walk_budget_error s c rest hdir herr
  refine ⟨hwalk, fun hne h => hne ?_⟩
  rw [hwalk] at h
  injection h with h2
  injection h2

theorem C2_budget_error_carries_failing_path_witness :
    ({ sealed := [["/a/b/f1"]], current := some [], currentSize := 209715200,
       fileNumber := 2, maxFiles := 1, lastWrittenPath := "/a/b/f1" } : RWState).maxFiles > 0 ∧
    ({ sealed := [["/a/b/f1"]], current := some [], currentSize := 209715200,
       fileNumber := 2, maxFiles := 1, lastWrittenPath := "/a/b/f1" } : RWState).fileNumber > 1 ∧
    walkDirectory [("/c/d/f2", false)]
      { sealed := [["/a/b/f1"]], current := some [], currentSize := 209715200,
        fileNumber := 2, maxFiles := 1, lastWrittenPath := "/a/b/f1" } "" =
      .error (.maxFiles "/c/d/f2") ∧
    walkDirectory [("/c/d/f2", false)]
      { sealed := [["/a/b/f1"]], current := some [], currentSize := 209715200,
        fileNumber := 2, maxFiles := 1, lastWrittenPath := "/a/b/f1" } "" ≠
      .error (.maxFiles "/a/b/f1") := by
  have h := C2_budget_error_carries_failing_path
    { sealed := [["/a/b/f1"]], current := some [], currentSize := 209715200,
      fileNumber := 2, maxFiles := 1, lastWrittenPath := "/a/b/f1" }
    "/c/d/f2" [] (by decide) (by decide) (by decide) (by decide)
  exact ⟨by decide, by decide, h.1, h.2 (by decide)⟩

/-- Claim C3, actual behavior. If a resumed traversal never produces a
path equal to the stored checkpoint, `walkDirectory` completes with
`ok` and the untouched writer state — every produced path is silently
discarded while waiting for the checkpoint — instead of failing with an
explicit resume error as the claim requires. -/
theorem C3_missing_checkpoint_silent (es : List (String × Bool)) (s : RWState)
    (rp : String) (hrp : rp ≠ "") (hmiss : ∀ e ∈ es, e.1 ≠ rp) :
    walkDirectory es s rp = .ok s :=
  walkDirectory_missing_checkpoint es s rp hrp hmiss

theorem C3_missing_checkpoint_silent_witness :
    ("/gone/f9" : String) ≠ "" ∧
    (∀ e ∈ ([("/x/f1", false), ("/x/f2", false)] : List (String × Bool)),
      e.1 ≠ "/gone/f9") ∧
    walkDirectory [("/x/f1", false), ("/x/f2", false)] freshWriter "/gone/f9" =
      .ok freshWriter :=
  ⟨by decide, by decide,
    C3_missing_checkpoint_silent [("/x/f1", false), ("/x/f2", false)] freshWriter
      "/gone/f9" (by decide) (by decide)⟩

/-- Claim C4, corrected. For well-formed paths `a` and `b` whose
directories share their first real component — or where `b` sits
directly under the root — decoding the token encoded for `b` against
`a` returns exactly `b`. Without that proviso the decode can return a
relative path (see the counterexample). -/
theorem C4_pair_roundtrip (a b : String) (ha : validPath a) (hb : validPath b)
    (hg : goodPair a b) :
    reconstructPath a (calculateDeltaPath a b) = .ok b :=
  pair_roundtrip a b ha hb hg

theorem C4_pair_roundtrip_witness :
    validPath "/a/b/f1" ∧ validPath "/a/c/f2" ∧ goodPair "/a/b/f1" "/a/c/f2" ∧
    reconstructPath "/a/b/f1" (calculateDeltaPath "/a/b/f1" "/a/c/f2") =
      .ok "/a/c/f2" :=
  ⟨by decide, by decide, by decide,
    C4_pair_roundtrip "/a/b/f1" "/a/c/f2" (by decide) (by decide) (by decide)⟩

/-- Counterexample to claim C4 as stated: `/a/f1` and `/d/f2` are both
well-formed, yet decoding the encoded token yields the relative `d/f2`,
not `/d/f2` — the truncation to the common prefix leaves only the empty
root component, and joining drops the leading separator. -/
theorem C4_pair_roundtrip_counterexample :
    validPath "/a/f1" ∧ validPath "/d/f2" ∧
    reconstructPath "/a/f1" (calculateDeltaPath "/a/f1" "/d/f2") = .ok "d/f2" ∧
    ("d/f2" : String) ≠ "/d/f2" := by
  decide

/-- Claim C5. The encoder implements the stated algorithm: with no
previous path it emits the path verbatim (a `Literal`); otherwise it
splits both directories into components, takes the common leading
prefix, ascends by the previous directory's remaining component count
and descends by the remaining current components plus the file name,
serializing `Ascend(0, s)` as the bare suffix and a positive count as
`-levels:suffix`. The stated three-path example encodes accordingly. -/
theorem C5_encoder_algorithm :
    (∀ prev current : String,
      calculateDeltaPath prev current = serializeToken (specEncode prev current)) ∧
    deltaLines "" ["/a/b/f1", "/a/b/f2", "/a/c/f1"] =
      [serializeToken (.literal "/a/b/f1"), serializeToken (.ascend 0 "f2"),
       serializeToken (.ascend 1 "c/f1")] := by
  constructor
  · intro prev current
    by_cases hp : prev = ""
    · subst hp
      rw [calculateDeltaPath_first]
      rfl
    · have hne : prev.toList ≠ [] := toList_ne_nil prev hp
      show String.mk (calculateDeltaChars prev.toList current.toList) = _
      rw [calculateDeltaChars_eval _ _ hne]
      simp only [specEncode, if_neg hp, serializeToken]
      by_cases h0 : (splitChars '/' (dirChars prev.toList)).length -
          commonPrefixLen (splitChars '/' (dirChars prev.toList))
            (splitChars '/' (dirChars current.toList)) = 0
      · rw [if_pos h0, if_pos h0]
      · rw [if_neg h0, if_neg h0]
        rfl
  · decide

/-- Claim C6. With a previous path present, decoding fails with the
`MalformedDelta` family exactly when the token is `Ascend`-form
(`-`-prefixed) but cannot be parsed — no `:` separator or a levels
field `Atoi` rejects — and with `DepthUnderflow` exactly when the
parsed levels exceeds the component count of the previous path's
directory; in particular `Ascend(5, "x")` against `/a/b` underflows. -/
theorem C6_decode_error_conditions (prev token : String) (hprev : prev ≠ "") :
    (isMalformed (reconstructPath prev token) ↔ malformedCondB token.toList = true) ∧
    (reconstructPath prev token = .error .depthUnderflow ↔
      underflowCondB prev.toList token.toList = true) ∧
    reconstructPath "/a/b" (serializeToken (.ascend 5 "x")) = .error .depthUnderflow := by
  obtain ⟨h1, h2⟩ := reconstructChars_error_iff prev.toList token.toList
    (toList_ne_nil prev hprev)
  refine ⟨?_, ?_, by decide⟩
  · show ((reconstructChars prev.toList token.toList).map String.mk =
        .error .invalidFormat ∨
      (reconstructChars prev.toList token.toList).map String.mk =
        .error .invalidLevels) ↔ _
    rw [except_map_eq_error, except_map_eq_error]
    exact h1
  · show (reconstructChars prev.toList token.toList).map String.mk =
      .error .depthUnderflow ↔ _
    rw [except_map_eq_error]
    exact h2

theorem C6_decode_error_conditions_witness :
    (("/a/b" : String) ≠ "") ∧
    (isMalformed (reconstructPath "/a/b" "-5:x") ↔
      malformedCondB "-5:x".toList = true) ∧
    (reconstructPath "/a/b" "-5:x" = .error .depthUnderflow ↔
      underflowCondB "/a/b".toList "-5:x".toList = true) ∧
    reconstructPath "/a/b" (serializeToken (.ascend 5 "x")) = .error .depthUnderflow :=
  ⟨by decide, C6_decode_error_conditions "/a/b" "-5:x" (by decide)⟩

/-- Claim C7. For every sequence of `WritePath` calls from a fresh
unbounded writer: every encoded line lands whole inside exactly one
segment, in write order (the sealed segments flatten to the delta
lines), and every sealed segment's plaintext byte size is within the
200 MiB bound plus the length of its own last line — rotation is
checked before each append, so a segment exceeds the bound only when it
consists of the single oversized line that forced the rotation. -/
theorem C7_rotation_boundary (ps : List String) :
    ∃ s', writeAll freshWriter ps = .ok s' ∧
      (closeWriter s').sealed.flatten = deltaLines "" ps ∧
      ∀ seg ∈ (closeWriter s').sealed, ∀ hne : seg ≠ [],
        segBytes seg ≤ maxFileSize + lineBytes (seg.getLast hne) := by
  obtain ⟨s', cur', hw, h0', hcur', hlines, hlast, hinv⟩ :=
    writeAll_zero_trace ps freshWriter [] rfl rfl
  refine ⟨s', hw, ?_, ?_⟩
  · rw [closeWriter_flatten s' cur' hcur', hlines]
    show allLines freshWriter ++ deltaLines "" ps = deltaLines "" ps
    simp [allLines, freshWriter]
  · intro seg hseg hne
    exact seg_bound_last seg
      (closeWriter_segs_bound s' cur' hcur' (hinv writerInv_fresh) seg hseg) hne

/-- Claim C8. If any step of sealing a segment fails — opening the
plaintext, creating the compressed artifact, copying, or closing the
gzip stream, and even a failing final remove — the operation returns an
error and the plaintext is not removed; the plaintext is removed
exactly when every step up to and including the remove succeeded, which
is exactly when the operation reports success. -/
theorem C8_compress_failure_retention (env : CompressEnv) :
    ((∃ e, (compressFile env).1 = .error e) ↔ (compressFile env).2 = false) ∧
    ((compressFile env).2 = true ↔
      (env.openOk = true ∧ env.createOk = true ∧ env.copyOk = true ∧
       env.closeOk = true ∧ env.removeOk = true)) := by
  obtain ⟨o, c, p, l, r⟩ := env
  cases o <;> cases c <;> cases p <;> cases l <;> cases r <;>
    simp [compressFile]

/-- Claim C9. Resuming with a stored checkpoint: every produced path
strictly before the checkpoint entry is discarded without touching the
writer, the checkpoint entry itself is not rewritten, and the walk over
the remaining entries is exactly the normal (non-resuming) walk from
the first entry after the checkpoint. -/
theorem C9_resume_skipping (pre : List (String × Bool)) (rp : String) (d : Bool)
    (suf : List (String × Bool)) (s : RWState) (hrp : rp ≠ "")
    (hpre : ∀ e ∈ pre, e.1 ≠ rp) :
    walkDirectory (pre ++ (rp, d) :: suf) s rp = walkDirectory suf s "" :=
  walkDirectory_resume_eq pre rp d suf s hrp hpre

theorem C9_resume_skipping_witness :
    ("/a/f2" : String) ≠ "" ∧
    (∀ e ∈ ([("/a/f1", false)] : List (String × Bool)), e.1 ≠ "/a/f2") ∧
    walkDirectory ([("/a/f1", false)] ++ ("/a/f2", false) :: [("/a/f3", false)])
        freshWriter "/a/f2" =
      walkDirectory [("/a/f3", false)] freshWriter "" :=
  ⟨by decide, by decide,
    C9_resume_skipping [("/a/f1", false)] "/a/f2" false [("/a/f3", false)]
      freshWriter (by decide) (by decide)⟩

/-- Claim C10, corrected. For well-formed paths — whose components are
non-empty, separator-free, not `.` or `..`, and do not begin with `-`
— the token the encoder produces for `b` against `a` never decodes to
the depth-underflow error against the same `a`. The restriction is
necessary: a path whose file name begins with `-` makes a zero-ascent
token parse as an `Ascend` form and underflow (see the
counterexample). -/
theorem C10_encoder_no_underflow (a b : String) (ha : validPath a) (hb : validPath b) :
    reconstructPath a (calculateDeltaPath a b) ≠ .error .depthUnderflow := by
  obtain ⟨r, hr⟩ := pair_decodes_ok a b ha hb
  rw [hr]
  intro h
  exact Except.noConfusion h

theorem C10_encoder_no_underflow_witness :
    validPath "/a/b/f1" ∧ validPath "/d/f2" ∧
    reconstructPath "/a/b/f1" (calculateDeltaPath "/a/b/f1" "/d/f2") ≠
      .error .depthUnderflow :=
  ⟨by decide, by decide,
    C10_encoder_no_underflow "/a/b/f1" "/d/f2" (by decide) (by decide)⟩

/-- Counterexample to claim C10 over all absolute paths: both paths
begin with `/`, but the second's file name begins with `-`, so the
zero-ascent token the encoder emits is the file name itself, which the
decoder misreads as `Ascend(9, x)` and rejects with depth underflow. -/
theorem C10_underflow_counterexample :
    "/a/f1".toList.head? = some '/' ∧ "/a/-9:x".toList.head? = some '/' ∧
    calculateDeltaPath "/a/f1" "/a/-9:x" = "-9:x" ∧
    reconstructPath "/a/f1" (calculateDeltaPath "/a/f1" "/a/-9:x") =
      .error .depthUnderflow := by
  decide
